import Mathlib

/-!
Verification of the object-store table of `sqlite_arraystore`
(`src/jsonstore/objectstore/table.py`).

The development shallowly embeds:
  * JSON values (`JVal`), with the integer/float distinction kept explicit
    (floats are modelled as finite decimal literals, matching the canonical
    rendering contract of the spec);
  * the canonical JSON encoder (the repository module
    `jsonstore.canonicaljson` is not part of the sources, so the encoder is
    modelled from the spec's section 4.1);
  * SHA-1 over UTF-8 bytes, as used through Python's `hashlib.sha1(...).hexdigest()`;
  * a JSON parser standing for Python's `json.loads` restricted to the
    canonical grammar (the spec's section 4.4 `decode`);
  * the SQLite table of `create_object_table` as a list of rows whose
    `INSERT OR REPLACE` upsert honours the `(canonical_json_sha1, property_name)`
    primary key, together with the five operations of `table.py`.
-/

set_option maxHeartbeats 1000000

namespace ObjectStore

/-- JSON values.  `jflt neg ip frac` stands for the decimal literal
`[-]ip.frac` (sign, integer part, fractional digits); keeping the fractional
digits separate preserves the integer/float distinction the spec demands. -/
inductive JVal : Type where
  | jnull : JVal
  | jbool : Bool → JVal
  | jint : Int → JVal
  | jflt : Bool → Nat → List Nat → JVal
  | jstr : String → JVal
  | jarr : List JVal → JVal
  | jobj : List (String × JVal) → JVal

/-- Key comparison used for canonical object-member ordering: byte-wise
lexicographic order on the UTF-8 encoding of the keys, which for Lean strings
coincides with the code-point lexicographic order `String.le`. -/
def keyLe (a b : String × JVal) : Bool := decide (a.1 ≤ b.1)

/-- Modelled from the spec: canonical member ordering sorts object keys by
byte-wise lexicographic order (spec section 4.1, `Object` case). -/
def sortKvs (kvs : List (String × JVal)) : List (String × JVal) :=
  kvs.mergeSort keyLe

/-- Decimal rendering of a natural number, most significant digit first. -/
def natLit (n : Nat) : List Char :=
  if n = 0 then ['0'] else ((Nat.digits 10 n).reverse.map Nat.digitChar)

def lcurly : Char := Char.ofNat 123

def rcurly : Char := Char.ofNat 125

/-- Modelled from the spec: the fixed escape table of the canonical encoder
(spec section 4.1, `String` case): quote, backslash and the short control
escapes, `\u00XX` for the remaining control characters, and every other code
point passes through. -/
def escChar (c : Char) : List Char :=
  if c = '"' then ['\\', '"']
  else if c = '\\' then ['\\', '\\']
  else if c = Char.ofNat 8 then ['\\', 'b']
  else if c = Char.ofNat 9 then ['\\', 't']
  else if c = Char.ofNat 10 then ['\\', 'n']
  else if c = Char.ofNat 12 then ['\\', 'f']
  else if c = Char.ofNat 13 then ['\\', 'r']
  else if c.toNat < 32 then
    ['\\', 'u', '0', '0', Nat.digitChar (c.toNat / 16), Nat.digitChar (c.toNat % 16)]
  else [c]

/-- Canonical rendering of a JSON string literal. -/
def encStr (s : String) : List Char := '"' :: (s.data.flatMap escChar) ++ ['"']

mutual

/-- Modelled from the spec: the canonical JSON encoder of
`jsonstore.canonicaljson` (spec section 4.1): fixed literals for `null` and
booleans, integers as plain decimals, floats always with a decimal point,
strings with the fixed escape table, arrays in order, objects with keys
sorted lexicographically. -/
def encV : JVal → List Char
  | .jnull => ['n', 'u', 'l', 'l']
  | .jbool true => ['t', 'r', 'u', 'e']
  | .jbool false => ['f', 'a', 'l', 's', 'e']
  | .jint i => if i < 0 then '-' :: natLit i.natAbs else natLit i.toNat
  | .jflt neg ip frac =>
      (if neg then ['-'] else []) ++ natLit ip ++ '.' :: frac.map Nat.digitChar
  | .jstr s => encStr s
  | .jarr xs => '[' :: encList xs ++ [']']
  | .jobj kvs => lcurly :: encMembers (sortKvs kvs) ++ [rcurly]
termination_by v => sizeOf v
decreasing_by
  all_goals simp_wf
  have h := (List.mergeSort_perm kvs keyLe).sizeOf_eq_sizeOf
  simp only [sortKvs]
  omega

/-- Comma-separated rendering of array elements. -/
def encList : List JVal → List Char
  | [] => []
  | [x] => encV x
  | x :: y :: rest => encV x ++ ',' :: encList (y :: rest)
termination_by xs => sizeOf xs
decreasing_by all_goals simp_wf <;> omega

/-- Comma-separated rendering of (already sorted) object members. -/
def encMembers : List (String × JVal) → List Char
  | [] => []
  | [(k, v)] => encStr k ++ ':' :: encV v
  | (k, v) :: kv :: rest => encStr k ++ ':' :: encV v ++ ',' :: encMembers (kv :: rest)
termination_by kvs => sizeOf kvs
decreasing_by all_goals simp_wf <;> omega

end

/-- The canonical JSON text of a value (the source's `canonical_json`). -/
def canonical_json (v : JVal) : String := String.mk (encV v)

mutual

/-- Recursively sorts every object's members by key: the canonical shape of a
value, i.e. exactly what parsing the canonical text back yields. -/
def canonV : JVal → JVal
  | .jnull => .jnull
  | .jbool b => .jbool b
  | .jint i => .jint i
  | .jflt neg ip frac => .jflt neg ip frac
  | .jstr s => .jstr s
  | .jarr xs => .jarr (canonList xs)
  | .jobj kvs => .jobj (canonKVs (sortKvs kvs))
termination_by v => sizeOf v
decreasing_by
  all_goals simp_wf
  have h := (List.mergeSort_perm kvs keyLe).sizeOf_eq_sizeOf
  simp only [sortKvs]
  omega

def canonList : List JVal → List JVal
  | [] => []
  | x :: rest => canonV x :: canonList rest
termination_by xs => sizeOf xs
decreasing_by all_goals simp_wf <;> omega

def canonKVs : List (String × JVal) → List (String × JVal)
  | [] => []
  | (k, v) :: rest => (k, canonV v) :: canonKVs rest
termination_by kvs => sizeOf kvs
decreasing_by all_goals simp_wf <;> omega

end

/-- Type-faithful equality of JSON values: by the spec's fingerprint
invariant (section 3), two values are the same value under type-faithful
equality exactly when their canonical shapes agree. -/
def teq (a b : JVal) : Prop := canonV a = canonV b

/-- Boolean key-uniqueness check. -/
def nodupB : List String → Bool
  | [] => true
  | k :: rest => !(rest.contains k) && nodupB rest

mutual

/-- Well-formed values: float literals have at least one fractional digit and
all fractional digits are decimal digits; object keys are unique.  These are
exactly the values representable by Python dict/list/int/float data. -/
def wfV : JVal → Bool
  | .jnull => true
  | .jbool _ => true
  | .jint _ => true
  | .jflt _ _ frac => !frac.isEmpty && frac.all (· < 10)
  | .jstr _ => true
  | .jarr xs => wfList xs
  | .jobj kvs => nodupB (kvs.map Prod.fst) && wfKVs kvs

def wfList : List JVal → Bool
  | [] => true
  | x :: rest => wfV x && wfList rest

def wfKVs : List (String × JVal) → Bool
  | [] => true
  | (_, v) :: rest => wfV v && wfKVs rest

end

/-! SHA-1, as used by the source through `hashlib.sha1(text.encode("utf-8")).hexdigest()`. -/

/-- UTF-8 encoding of one character, as a list of byte values. -/
def utf8Char (c : Char) : List Nat :=
  let n := c.toNat
  if n < 128 then [n]
  else if n < 2048 then [192 + n / 64, 128 + n % 64]
  else if n < 65536 then [224 + n / 4096, 128 + (n / 64) % 64, 128 + n % 64]
  else [240 + n / 262144, 128 + (n / 4096) % 64, 128 + (n / 64) % 64, 128 + n % 64]

/-- UTF-8 encoding of a string (Python's `str.encode("utf-8")`). -/
def utf8Bytes (s : String) : List Nat := s.data.flatMap utf8Char

/-- Left rotation of a 32-bit word held in a `Nat`. -/
def rotl32 (k x : Nat) : Nat := ((x <<< k) % 4294967296) ||| (x >>> (32 - k))

/-- SHA-1 message padding: append `0x80`, zero bytes to 56 mod 64, then the
bit length as an 8-byte big-endian integer. -/
def sha1Pad (msg : List Nat) : List Nat :=
  let len := msg.length
  let bits := 8 * len
  msg ++ 128 :: List.replicate ((119 - len % 64) % 64) 0 ++
    [bits >>> 56 % 256, bits >>> 48 % 256, bits >>> 40 % 256, bits >>> 32 % 256,
     bits >>> 24 % 256, bits >>> 16 % 256, bits >>> 8 % 256, bits % 256]

/-- Split a byte list into 64-byte blocks (the input length is a multiple of
64 after padding; a ragged tail would become a short final block). -/
def sha1Blocks : List Nat → List (List Nat)
  | [] => []
  | a :: l => (a :: l).take 64 :: sha1Blocks ((a :: l).drop 64)
termination_by l => l.length
decreasing_by simp_wf; omega

/-- Pack four consecutive bytes, big-endian, into 32-bit words. -/
def sha1Words : List Nat → List Nat
  | b0 :: b1 :: b2 :: b3 :: rest =>
      (((b0 * 256 + b1) * 256 + b2) * 256 + b3) :: sha1Words rest
  | _ => []

/-- The 80-word SHA-1 message schedule, extending the 16 block words. -/
def sha1Schedule (ws : List Nat) : Nat → List Nat
  | 0 => ws
  | k + 1 =>
      let prev := sha1Schedule ws k
      let n := prev.length
      prev ++ [rotl32 1 ((((prev.getD (n - 3) 0) ^^^ (prev.getD (n - 8) 0)) ^^^
        (prev.getD (n - 14) 0)) ^^^ (prev.getD (n - 16) 0))]

/-- The round function and constant for round `i`. -/
def sha1F (i b c d : Nat) : Nat × Nat :=
  if i < 20 then ((b &&& c) ||| ((b ^^^ 4294967295) &&& d), 1518500249)
  else if i < 40 then ((b ^^^ c) ^^^ d, 1859775393)
  else if i < 60 then ((b &&& c) ||| (b &&& d) ||| (c &&& d), 2400959708)
  else ((b ^^^ c) ^^^ d, 3395469782)

/-- One SHA-1 compression step. -/
def sha1Step (st : Nat × Nat × Nat × Nat × Nat) (iw : Nat × Nat) :
    Nat × Nat × Nat × Nat × Nat :=
  let (a, b, c, d, e) := st
  let (i, w) := iw
  let (f, k) := sha1F i b c d
  let tmp := (rotl32 5 a + f + e + k + w) % 4294967296
  (tmp, a, rotl32 30 b, c, d)

/-- Process one 64-byte block. -/
def sha1Block (h : Nat × Nat × Nat × Nat × Nat) (block : List Nat) :
    Nat × Nat × Nat × Nat × Nat :=
  let (h0, h1, h2, h3, h4) := h
  let ws := sha1Schedule (sha1Words block) 64
  let (a, b, c, d, e) := ws.enum.foldl sha1Step (h0, h1, h2, h3, h4)
  ((h0 + a) % 4294967296, (h1 + b) % 4294967296, (h2 + c) % 4294967296,
   (h3 + d) % 4294967296, (h4 + e) % 4294967296)

/-- Render a 32-bit word as eight lowercase hexadecimal characters. -/
def hexWord (w : Nat) : List Char :=
  [Nat.digitChar (w >>> 28 % 16), Nat.digitChar (w >>> 24 % 16),
   Nat.digitChar (w >>> 20 % 16), Nat.digitChar (w >>> 16 % 16),
   Nat.digitChar (w >>> 12 % 16), Nat.digitChar (w >>> 8 % 16),
   Nat.digitChar (w >>> 4 % 16), Nat.digitChar (w % 16)]

/-- SHA-1 digest of a byte sequence, rendered as the fixed-length lowercase
hexadecimal string produced by Python's `hexdigest()`. -/
def sha1Hex (msg : List Nat) : String :=
  let (h0, h1, h2, h3, h4) :=
    (sha1Blocks (sha1Pad msg)).foldl sha1Block
      (1732584193, 4023233417, 2562383102, 271733878, 3285377520)
  String.mk (hexWord h0 ++ hexWord h1 ++ hexWord h2 ++ hexWord h3 ++ hexWord h4)

/-- The fingerprint of a value: SHA-1 of the UTF-8 bytes of its canonical
JSON text (`hashlib.sha1(canonical_json(obj).encode("utf-8")).hexdigest()`). -/
def autoHash (v : JVal) : String := sha1Hex (utf8Bytes (canonical_json v))

/-! The JSON parser standing for Python's `json.loads`.  Per spec section 4.4,
`decode` is the inverse parser of the canonical encoder's grammar and need
accept exactly that grammar, since every stored text was produced by the
encoder. -/

/-- Numeric value of a decimal digit character. -/
def charVal (c : Char) : Nat := c.toNat - 48

/-- Value of a run of decimal digit characters, most significant first. -/
def digitsVal (l : List Char) : Nat := l.foldl (fun a c => a * 10 + charVal c) 0

/-- Hexadecimal digit test covering the characters the canonical encoder can
emit in a `\u00XX` escape (decimal digits and lowercase `a`–`f`). -/
def isHexCh (c : Char) : Bool := c.isDigit || (97 ≤ c.toNat && c.toNat ≤ 102)

/-- Numeric value of a hexadecimal digit character. -/
def hexVal (c : Char) : Nat := if 97 ≤ c.toNat then c.toNat - 87 else c.toNat - 48

/-- Consume an expected literal suffix. -/
def strip : List Char → List Char → Option (List Char)
  | [], cs => some cs
  | t :: ts, c :: cs => if c = t then strip ts cs else none
  | _ :: _, [] => none

/-- Parse the body of a JSON string literal after the opening quote,
accumulating decoded characters until the closing quote. -/
def parseStrBody : List Char → List Char → Option (String × List Char)
  | [], _ => none
  | c :: rest, acc =>
    if c = '"' then some (String.mk acc, rest)
    else if c = '\\' then
      match rest with
      | [] => none
      | e :: rest2 =>
        if e = 'u' then
          match rest2 with
          | h1 :: h2 :: h3 :: h4 :: rest3 =>
            if isHexCh h1 && isHexCh h2 && isHexCh h3 && isHexCh h4 then
              parseStrBody rest3
                (acc ++ [Char.ofNat
                  (((hexVal h1 * 16 + hexVal h2) * 16 + hexVal h3) * 16 + hexVal h4)])
            else none
          | _ => none
        else if e = '"' then parseStrBody rest2 (acc ++ ['"'])
        else if e = '\\' then parseStrBody rest2 (acc ++ ['\\'])
        else if e = 'b' then parseStrBody rest2 (acc ++ [Char.ofNat 8])
        else if e = 't' then parseStrBody rest2 (acc ++ [Char.ofNat 9])
        else if e = 'n' then parseStrBody rest2 (acc ++ [Char.ofNat 10])
        else if e = 'f' then parseStrBody rest2 (acc ++ [Char.ofNat 12])
        else if e = 'r' then parseStrBody rest2 (acc ++ [Char.ofNat 13])
        else none
    else parseStrBody rest (acc ++ [c])

/-- Parse the digits of a number after an optional leading minus sign:
an integer, or a float when a decimal point with fractional digits follows. -/
def parseNumCore (neg : Bool) (cs : List Char) : Option (JVal × List Char) :=
  match cs.span Char.isDigit with
  | (ds, rest) =>
    if ds.isEmpty then none
    else
      match rest with
      | '.' :: cs2 =>
        (match cs2.span Char.isDigit with
         | (fs, rest2) =>
           if fs.isEmpty then none
           else some (.jflt neg (digitsVal ds) (fs.map charVal), rest2))
      | _ => some (.jint (if neg then -(digitsVal ds : Int) else (digitsVal ds : Int)), rest)

/-- Parse a JSON number. -/
def parseNum (cs : List Char) : Option (JVal × List Char) :=
  match cs with
  | [] => none
  | c :: cs1 => if c = '-' then parseNumCore true cs1 else parseNumCore false (c :: cs1)

mutual

/-- Modelled from the spec: the `decode` parser of section 4.4 (Python's
`json.loads` restricted to the canonical grammar).  The first argument is
recursion fuel; `jsonLoads` supplies enough for any input. -/
def parseVal : Nat → List Char → Option (JVal × List Char)
  | 0, _ => none
  | fuel + 1, cs =>
    match cs with
    | [] => none
    | c :: rest =>
      if c = 'n' then (strip ['u', 'l', 'l'] rest).map (fun r => (.jnull, r))
      else if c = 't' then (strip ['r', 'u', 'e'] rest).map (fun r => (.jbool true, r))
      else if c = 'f' then (strip ['a', 'l', 's', 'e'] rest).map (fun r => (.jbool false, r))
      else if c = '"' then (parseStrBody rest []).map (fun p => (.jstr p.1, p.2))
      else if c = '[' then (parseElems fuel rest).map (fun p => (.jarr p.1, p.2))
      else if c = lcurly then (parseMembers fuel rest).map (fun p => (.jobj p.1, p.2))
      else parseNum (c :: rest)

/-- Parse array elements up to and including the closing bracket. -/
def parseElems : Nat → List Char → Option (List JVal × List Char)
  | _, [] => none
  | fuel, c :: rest =>
    if c = ']' then some ([], rest)
    else
      match fuel with
      | 0 => none
      | fuel + 1 =>
        (parseVal fuel (c :: rest)).bind fun p =>
          match p.2 with
          | ',' :: r2 => (parseElems fuel r2).bind fun q => some (p.1 :: q.1, q.2)
          | ']' :: r2 => some ([p.1], r2)
          | _ => none

/-- Parse object members up to and including the closing brace. -/
def parseMembers : Nat → List Char → Option (List (String × JVal) × List Char)
  | _, [] => none
  | fuel, c :: rest =>
    if c = rcurly then some ([], rest)
    else if c = '"' then
      match fuel with
      | 0 => none
      | fuel + 1 =>
        (parseStrBody rest []).bind fun kp =>
          match kp.2 with
          | ':' :: r2 =>
            (parseVal fuel r2).bind fun vp =>
              match vp.2 with
              | c2 :: r3 =>
                if c2 = ',' then
                  (parseMembers fuel r3).bind fun q => some ((kp.1, vp.1) :: q.1, q.2)
                else if c2 = rcurly then some ([(kp.1, vp.1)], r3)
                else none
              | [] => none
          | _ => none
    else none

end

/-- Python's `json.loads` on canonical text: parse one value and require the
input to be fully consumed. -/
def jsonLoads (s : String) : Option JVal :=
  (parseVal (s.data.length + 1) s.data).bind fun p =>
    match p.2 with
    | [] => some p.1
    | _ => none

/-! The SQLite table of `create_object_table` and the operations of
`table.py`.  A table is a list of rows; `INSERT OR REPLACE` under the
`(canonical_json_sha1, property_name)` primary key first deletes any
conflicting row and then appends the new one. -/

/-- One row of the object table: `(canonical_json_sha1, property_name,
property_json, property_json_sha1)`; the last two columns are nullable. -/
structure Row where
  hash : String
  name : String
  pjson : Option String
  psha : Option String
deriving DecidableEq, Repr

/-- `INSERT OR REPLACE` keyed by `(canonical_json_sha1, property_name)`. -/
def upsert (t : List Row) (r : Row) : List Row :=
  t.filter (fun x => !(x.hash == r.hash && x.name == r.name)) ++ [r]

/-- The row `insert_object` writes for one property. -/
def objRow (h : String) (kv : String × JVal) : Row :=
  ⟨h, kv.1, some (canonical_json kv.2),
    some (sha1Hex (utf8Bytes (canonical_json kv.2)))⟩

/-- `insert_object(conn, canonical_json_sha1, obj, table_name)`: one
`INSERT OR REPLACE` per property, with the property's canonical JSON text and
that text's SHA-1 digest. -/
def insert_object (t : List Row) (h : String) (kvs : List (String × JVal)) : List Row :=
  kvs.foldl (fun acc kv => upsert acc (objRow h kv)) t

/-- Python raises `AttributeError` when `insert_object` receives a value with
no `.items()` (any non-dict top-level value); the spec's name for this
failure is `NotAContainer`. -/
inductive StoreErr : Type where
  | notAContainer : StoreErr
deriving DecidableEq, Repr

/-- `insert_object` on an arbitrary top-level value: only a dict has
`.items()`, every other value raises before any row is written. -/
def insert_object_checked (t : List Row) (h : String) (v : JVal) :
    Except StoreErr (List Row) :=
  match v with
  | .jobj kvs => .ok (insert_object t h kvs)
  | _ => .error .notAContainer

/-- Scalar (non-object, non-array) top-level values. -/
def isScalar : JVal → Bool
  | .jobj _ => false
  | .jarr _ => false
  | _ => true

/-- `insert_object_auto_hash`: fingerprint the whole object, insert, and
return the fingerprint with the new table state. -/
def insert_object_auto_hash (t : List Row) (kvs : List (String × JVal)) :
    String × List Row :=
  (autoHash (.jobj kvs), insert_object t (autoHash (.jobj kvs)) kvs)

/-- The row the batch insert writes: only three columns are supplied, so
`property_json_sha1` takes its default NULL. -/
def batchRow (h : String) (kv : String × JVal) : Row :=
  ⟨h, kv.1, some (canonical_json kv.2), none⟩

/-- The inner loop of the batch insert for one object: one three-column
`INSERT OR REPLACE` per property. -/
def batchInsertOne (t : List Row) (kvs : List (String × JVal)) : List Row :=
  kvs.foldl (fun tb kv => upsert tb (batchRow (autoHash (.jobj kvs)) kv)) t

/-- `insert_objects_auto_hash`: per object, fingerprint and insert each
property through the three-column `INSERT OR REPLACE`; fingerprints are
returned in input order. -/
def insert_objects_auto_hash (t : List Row) (objs : List (List (String × JVal))) :
    List String × List Row :=
  objs.foldl
    (fun acc kvs => (acc.1 ++ [autoHash (.jobj kvs)], batchInsertOne acc.2 kvs))
    ([], t)

/-- Decoding of one stored cell: SQL NULL loads as Python `None` (`jnull`),
other cells go through `json.loads`. -/
def rowVal (pj : Option String) : Option JVal :=
  match pj with
  | none => some .jnull
  | some s => jsonLoads s

/-- Python dict assignment `d[k] = v`: replace in place or append. -/
def dinsert (d : List (String × JVal)) (kv : String × JVal) : List (String × JVal) :=
  if d.any (fun p => p.1 == kv.1) then
    d.map (fun p => if p.1 == kv.1 then (p.1, kv.2) else p)
  else d ++ [kv]

/-- `retrieve_object`: select the fingerprint's rows and build a dict from
property name to decoded value; `none` models a `json.loads` failure
(impossible for rows this module wrote). -/
def retrieve_object (t : List Row) (h : String) : Option (List (String × JVal)) :=
  (t.filter (fun r => r.hash == h)).foldlM
    (fun d r => (rowVal r.pjson).map (fun v => dinsert d (r.name, v))) []

/-- Rows ordered as by `ORDER BY canonical_json_sha1` (SQLite's BINARY
collation is byte-wise comparison of the UTF-8 text, which is `String.le`). -/
def sortRows (t : List Row) : List Row :=
  t.mergeSort (fun a b => decide (a.hash ≤ b.hash))

/-- The accumulator loop of `retrieve_all_objects`: `cur` is
`current_hash` (`None` before the first row), `obj` is `current_obj`, and
`res` is `results`; a hash change flushes the current object. -/
def goAll : List Row → Option String → List (String × JVal) →
    List (List (String × JVal)) → Option (List (List (String × JVal)))
  | [], cur, obj, res =>
    some (match cur with
          | none => res
          | some _ => res ++ [obj])
  | r :: rest, cur, obj, res =>
    if some r.hash == cur then
      (rowVal r.pjson).bind fun v => goAll rest cur (dinsert obj (r.name, v)) res
    else
      (rowVal r.pjson).bind fun v =>
        goAll rest (some r.hash) (dinsert [] (r.name, v))
          (match cur with
           | none => res
           | some _ => res ++ [obj])

/-- `retrieve_all_objects`: scan the fingerprint-ordered rows once, grouping
consecutive runs of equal fingerprint into dicts. -/
def retrieve_all_objects (t : List Row) : Option (List (List (String × JVal))) :=
  goAll (sortRows t) none [] []

/-- The write operations of `table.py`, for stating invariants over every
reachable table state. -/
inductive Op : Type where
  | single : String → List (String × JVal) → Op
  | auto : List (String × JVal) → Op
  | batch : List (List (String × JVal)) → Op

/-- Apply one write operation to the table. -/
def applyOp (t : List Row) : Op → List Row
  | .single h kvs => insert_object t h kvs
  | .auto kvs => (insert_object_auto_hash t kvs).2
  | .batch objs => (insert_objects_auto_hash t objs).2

/-- Run a sequence of write operations from the freshly created table. -/
def runOps (ops : List Op) : List Row :=
  ops.foldl applyOp []

/-- Repeated single insert: `insert_object_auto_hash` on each object in
turn, collecting the returned fingerprints in order. -/
def insert_objects_seq (t : List Row) (objs : List (List (String × JVal))) :
    List String × List Row :=
  objs.foldl
    (fun acc kvs =>
      (acc.1 ++ [(insert_object_auto_hash acc.2 kvs).1],
       (insert_object_auto_hash acc.2 kvs).2))
    ([], t)

/-- Erase the `property_json_sha1` column of a row. -/
def stripRow (r : Row) : Row := ⟨r.hash, r.name, r.pjson, none⟩

/-- Erase the `property_json_sha1` column of a whole table. -/
def stripSha (t : List Row) : List Row := t.map stripRow

/-- Dict lookup on the assoc-list representation of a Python dict. -/
def dictLookup (d : List (String × JVal)) (k : String) : Option JVal :=
  (d.find? (fun p => p.1 == k)).map Prod.snd

/-- The primary-key invariant `create_object_table` enforces:
no two rows share `(canonical_json_sha1, property_name)`. -/
def rowKey (r : Row) : String × String := (r.hash, r.name)

/-- Membership of a row's primary key among a list of rows. -/
def keyMem (r : Row) (rs : List Row) : Bool :=
  rs.any (fun x => r.hash == x.hash && r.name == x.name)

/-- The primary-key invariant the schema enforces on every reachable table:
no two rows share `(canonical_json_sha1, property_name)`. -/
def TInv (t : List Row) : Prop := (t.map rowKey).Nodup

/-- The per-row invariant of claim C6, weakened to admit the NULL digests the
batch insert leaves behind: `property_json` holds the canonical text of some
value, and `property_json_sha1` is either that text's SHA-1 digest or NULL. -/
def goodRow (r : Row) : Prop :=
  ∃ v, r.pjson = some (canonical_json v) ∧
    (r.psha = some (sha1Hex (utf8Bytes (canonical_json v))) ∨ r.psha = none)

/-- Collapse consecutive equal fingerprints of an ordered row stream. -/
def dedupConsec : List String → List String
  | [] => []
  | [x] => [x]
  | x :: y :: r => if x == y then dedupConsec (y :: r) else x :: dedupConsec (y :: r)

/-- The distinct fingerprints present in the table, in ascending order:
exactly the grouping keys of `retrieve_all_objects`. -/
def distinctHashes (t : List Row) : List String :=
  dedupConsec ((sortRows t).map (fun r => r.hash))

/-- Build one dict from a group of rows, exactly as the loops of
`retrieve_object` and `retrieve_all_objects` do. -/
def buildObj (rs : List Row) : Option (List (String × JVal)) :=
  rs.foldlM (fun d r => (rowVal r.pjson).map (fun v => dinsert d (r.name, v))) []

/-- Maximal consecutive runs of equal fingerprint in a row stream. -/
def runs : List Row → List (List Row)
  | [] => []
  | r :: rest =>
      (r :: rest.takeWhile (fun x => x.hash == r.hash)) ::
        runs (rest.dropWhile (fun x => x.hash == r.hash))
termination_by l => l.length
decreasing_by
  simp_wf
  have hsub : List.Sublist (rest.dropWhile (fun x => x.hash == r.hash)) rest :=
    List.dropWhile_sublist _
  have := hsub.length_le
  omega

/-- `true` when the input does not continue with a decimal digit (so a digit
run just parsed cannot be extended). -/
def headNotDigit : List Char → Bool
  | [] => true
  | c :: _ => !c.isDigit

/-- `true` when the input continues with neither a digit nor a decimal
point: appending such a continuation does not change how a leading number
literal is parsed. -/
def numSafe : List Char → Bool
  | [] => true
  | c :: _ => !c.isDigit && !(c == '.')

mutual

/-- Fuel sufficient for `parseVal` to parse the canonical text of a value. -/
def fuelV : JVal → Nat
  | .jnull => 1
  | .jbool _ => 1
  | .jint _ => 1
  | .jflt _ _ _ => 1
  | .jstr _ => 1
  | .jarr xs => 1 + fuelL xs
  | .jobj kvs => 1 + fuelM (sortKvs kvs)
termination_by v => sizeOf v
decreasing_by
  all_goals simp_wf
  have h := (List.mergeSort_perm kvs keyLe).sizeOf_eq_sizeOf
  simp only [sortKvs]
  omega

/-- Fuel sufficient for `parseElems` on an encoded element list. -/
def fuelL : List JVal → Nat
  | [] => 0
  | x :: rest => 1 + max (fuelV x) (fuelL rest)
termination_by xs => sizeOf xs
decreasing_by all_goals simp_wf <;> omega

/-- Fuel sufficient for `parseMembers` on an encoded member list. -/
def fuelM : List (String × JVal) → Nat
  | [] => 0
  | (_, v) :: rest => 1 + max (fuelV v) (fuelM rest)
termination_by kvs => sizeOf kvs
decreasing_by all_goals simp_wf <;> omega

end

/-! Closed form of a run of `INSERT OR REPLACE` statements. -/

lemma keyMem_eq_false (r : Row) (rs : List Row) (h : rowKey r ∉ rs.map rowKey) :
    keyMem r rs = false := by
  rw [Bool.eq_false_iff]
  intro hk
  simp only [keyMem, List.any_eq_true, Bool.and_eq_true, beq_iff_eq] at hk
  obtain ⟨x, hx, h1, h2⟩ := hk
  exact h (by
    refine List.mem_map.mpr ⟨x, hx, ?_⟩
    simp [rowKey, h1, h2])

lemma foldl_upsert_closed (rs : List Row) : ∀ t : List Row, (rs.map rowKey).Nodup →
    rs.foldl upsert t = t.filter (fun x => !keyMem x rs) ++ rs := by
  induction rs with
  | nil => intro t _; simp [keyMem]
  | cons r rs ih =>
    intro t hnd
    simp only [List.map_cons, List.nodup_cons] at hnd
    rw [List.foldl_cons, ih _ hnd.2]
    have hr : keyMem r rs = false := keyMem_eq_false r rs hnd.1
    simp only [upsert, List.filter_append, List.filter_cons, List.filter_nil, hr,
      Bool.not_false, if_pos trivial, List.filter_filter]
    rw [List.append_assoc]
    simp only [List.singleton_append]
    congr 1
    apply List.filter_congr
    intro x _
    simp only [keyMem, List.any_cons, Bool.not_or, Bool.not_and]
    cases hxh : x.hash == r.hash <;> cases hxn : x.name == r.name <;>
      simp [keyMem, Bool.not_or]

lemma insert_object_eq_foldl (t : List Row) (h : String) (kvs : List (String × JVal)) :
    insert_object t h kvs = (kvs.map (objRow h)).foldl upsert t := by
  rw [insert_object, List.foldl_map]

lemma nodupB_iff (l : List String) : nodupB l = true ↔ l.Nodup := by
  induction l with
  | nil => simp [nodupB]
  | cons k rest ih =>
    have hc : rest.contains k = true ↔ k ∈ rest := by
      rw [List.contains_iff_exists_mem_beq]
      constructor
      · rintro ⟨a, ha, hb⟩
        rw [beq_iff_eq] at hb
        exact hb ▸ ha
      · intro h
        exact ⟨k, h, by simp⟩
    simp only [nodupB, Bool.and_eq_true, Bool.not_eq_true', List.nodup_cons, ih]
    rw [Bool.eq_false_iff, Ne, hc]

lemma objRows_keys_nodup (h : String) (kvs : List (String × JVal))
    (hnd : nodupB (kvs.map Prod.fst) = true) :
    ((kvs.map (objRow h)).map rowKey).Nodup := by
  have : (kvs.map (objRow h)).map rowKey = (kvs.map Prod.fst).map (fun k => (h, k)) := by
    simp [List.map_map, Function.comp, objRow, rowKey]
  rw [this]
  exact ((nodupB_iff _).mp hnd).map (fun a b hab => by
    simpa using congrArg Prod.snd hab)

lemma batchInsertOne_eq_foldl (t : List Row) (kvs : List (String × JVal)) :
    batchInsertOne t kvs =
      (kvs.map (batchRow (autoHash (.jobj kvs)))).foldl upsert t := by
  rw [batchInsertOne, List.foldl_map]

lemma keyMem_self {r : Row} {rs : List Row} (h : r ∈ rs) : keyMem r rs = true := by
  simp only [keyMem, List.any_eq_true]
  exact ⟨r, h, by simp⟩

/-! Framing: an upsert for one fingerprint leaves other fingerprints' rows
untouched. -/

lemma filter_hash_upsert (t : List Row) (r : Row) (h' : String) (hne : r.hash ≠ h') :
    (upsert t r).filter (fun x => x.hash == h') = t.filter (fun x => x.hash == h') := by
  simp only [upsert, List.filter_append, List.filter_filter, List.filter_cons,
    List.filter_nil]
  rw [if_neg (by simp [hne])]
  rw [List.append_nil]
  apply List.filter_congr
  intro x _
  cases hx : x.hash == h'
  · simp
  · have hxh : x.hash = h' := by simpa using hx
    have : (x.hash == r.hash) = false := by
      simp [hxh]
      exact fun hc => hne hc.symm
    simp [this]

lemma filter_hash_insert_object (t : List Row) (h h' : String)
    (kvs : List (String × JVal)) (hne : h' ≠ h) :
    (insert_object t h kvs).filter (fun x => x.hash == h') =
      t.filter (fun x => x.hash == h') := by
  rw [insert_object_eq_foldl]
  induction kvs generalizing t with
  | nil => rfl
  | cons kv kvs ih =>
    simp only [List.map_cons, List.foldl_cons]
    rw [ih (upsert t (objRow h kv))]
    exact filter_hash_upsert t (objRow h kv) h' (fun hc => hne (hc.symm))

/-! Rows written by any operation satisfy the per-row invariant. -/

lemma mem_upsert_cases {x r : Row} {t : List Row} (h : x ∈ upsert t r) :
    x ∈ t ∨ x = r := by
  simp only [upsert, List.mem_append, List.mem_filter, List.mem_singleton] at h
  rcases h with ⟨hx, _⟩ | hx
  · exact .inl hx
  · exact .inr hx

lemma goodRow_objRow (h : String) (kv : String × JVal) : goodRow (objRow h kv) :=
  ⟨kv.2, rfl, .inl rfl⟩

lemma goodRow_batchRow (h : String) (kv : String × JVal) : goodRow (batchRow h kv) :=
  ⟨kv.2, rfl, .inr rfl⟩

lemma foldl_upsert_good {rs t : List Row} (ht : ∀ x ∈ t, goodRow x)
    (hrs : ∀ x ∈ rs, goodRow x) : ∀ x ∈ rs.foldl upsert t, goodRow x := by
  induction rs generalizing t with
  | nil => simpa using ht
  | cons r rs ih =>
    intro x hx
    simp only [List.foldl_cons] at hx
    refine ih (t := upsert t r) ?_ (fun y hy => hrs y (List.mem_cons_of_mem _ hy)) x hx
    intro y hy
    rcases mem_upsert_cases hy with h1 | h1
    · exact ht y h1
    · exact h1 ▸ hrs r (List.mem_cons_self _ _)

lemma insert_object_good {t : List Row} (ht : ∀ x ∈ t, goodRow x) (h : String)
    (kvs : List (String × JVal)) : ∀ x ∈ insert_object t h kvs, goodRow x := by
  rw [insert_object_eq_foldl]
  refine foldl_upsert_good ht ?_
  intro x hx
  obtain ⟨kv, _, rfl⟩ := List.mem_map.mp hx
  exact goodRow_objRow h kv

lemma batchInsertOne_good {t : List Row} (ht : ∀ x ∈ t, goodRow x)
    (kvs : List (String × JVal)) : ∀ x ∈ batchInsertOne t kvs, goodRow x := by
  rw [batchInsertOne_eq_foldl]
  refine foldl_upsert_good ht ?_
  intro x hx
  obtain ⟨kv, _, rfl⟩ := List.mem_map.mp hx
  exact goodRow_batchRow _ kv

lemma batch_fold_good (objs : List (List (String × JVal))) :
    ∀ (fps : List String) (t : List Row), (∀ x ∈ t, goodRow x) →
    ∀ x ∈ (objs.foldl
        (fun acc kvs => (acc.1 ++ [autoHash (.jobj kvs)], batchInsertOne acc.2 kvs))
        (fps, t)).2, goodRow x := by
  induction objs with
  | nil => intro fps t ht; simpa using ht
  | cons kvs objs ih =>
    intro fps t ht
    simp only [List.foldl_cons]
    exact ih _ _ (batchInsertOne_good ht kvs)

lemma applyOp_good {t : List Row} (ht : ∀ x ∈ t, goodRow x) (op : Op) :
    ∀ x ∈ applyOp t op, goodRow x := by
  cases op with
  | single h kvs => exact insert_object_good ht h kvs
  | auto kvs => exact insert_object_good ht _ kvs
  | batch objs => exact batch_fold_good objs [] t ht

/-! Batch insert versus repeated single insert, modulo the digest column. -/

lemma stripSha_upsert (t : List Row) (r : Row) :
    stripSha (upsert t r) = upsert (stripSha t) (stripRow r) := by
  simp only [stripSha, upsert, List.map_append, List.map_cons, List.map_nil,
    List.filter_map]
  congr 1

lemma stripSha_foldl (rs : List Row) : ∀ t : List Row,
    stripSha (rs.foldl upsert t) = (rs.map stripRow).foldl upsert (stripSha t) := by
  induction rs with
  | nil => intro t; rfl
  | cons r rs ih =>
    intro t
    simp only [List.foldl_cons, List.map_cons]
    rw [ih, stripSha_upsert]

lemma strip_batchInsertOne_eq_strip_insert {t1 t2 : List Row}
    (hst : stripSha t1 = stripSha t2) (kvs : List (String × JVal)) :
    stripSha (batchInsertOne t1 kvs) =
      stripSha (insert_object t2 (autoHash (.jobj kvs)) kvs) := by
  rw [batchInsertOne_eq_foldl, insert_object_eq_foldl, stripSha_foldl, stripSha_foldl,
    hst]
  congr 1
  simp only [List.map_map]
  apply List.map_congr_left
  intro kv _
  rfl

lemma retrieve_object_of_no_rows (t : List Row) (h : String)
    (habs : ∀ r ∈ t, r.hash ≠ h) : retrieve_object t h = some [] := by
  unfold retrieve_object
  rw [List.filter_eq_nil_iff.mpr (fun r hr => by simp [habs r hr])]
  rfl

lemma batch_seq_aux (objs : List (List (String × JVal))) :
    ∀ (fps : List String) (t1 t2 : List Row), stripSha t1 = stripSha t2 →
    (objs.foldl
        (fun acc kvs => (acc.1 ++ [autoHash (.jobj kvs)], batchInsertOne acc.2 kvs))
        (fps, t1)).1 =
      (objs.foldl
        (fun acc kvs => (acc.1 ++ [(insert_object_auto_hash acc.2 kvs).1],
          (insert_object_auto_hash acc.2 kvs).2)) (fps, t2)).1 ∧
    stripSha (objs.foldl
        (fun acc kvs => (acc.1 ++ [autoHash (.jobj kvs)], batchInsertOne acc.2 kvs))
        (fps, t1)).2 =
      stripSha (objs.foldl
        (fun acc kvs => (acc.1 ++ [(insert_object_auto_hash acc.2 kvs).1],
          (insert_object_auto_hash acc.2 kvs).2)) (fps, t2)).2 := by
  induction objs with
  | nil => intro fps t1 t2 hst; exact ⟨rfl, hst⟩
  | cons kvs objs ih =>
    intro fps t1 t2 hst
    simp only [List.foldl_cons]
    exact ih _ _ _ (strip_batchInsertOne_eq_strip_insert hst kvs)

/-! Claim theorems (table-level claims). -/

/-- C5: inserting the same object twice through `insert_object_auto_hash`
yields the same fingerprint both times and leaves the table identical to a
single insert — no duplicate rows and no growth in row count. -/
theorem c5_insert_object_auto_hash_idempotent (t : List Row)
    (kvs : List (String × JVal)) (hnd : nodupB (kvs.map Prod.fst) = true) :
    (insert_object_auto_hash ((insert_object_auto_hash t kvs).2) kvs).1 =
      (insert_object_auto_hash t kvs).1 ∧
    (insert_object_auto_hash ((insert_object_auto_hash t kvs).2) kvs).2 =
      (insert_object_auto_hash t kvs).2 := by
  refine ⟨rfl, ?_⟩
  show insert_object (insert_object t (autoHash (.jobj kvs)) kvs)
        (autoHash (.jobj kvs)) kvs
      = insert_object t (autoHash (.jobj kvs)) kvs
  have hk := objRows_keys_nodup (autoHash (.jobj kvs)) kvs hnd
  rw [insert_object_eq_foldl, insert_object_eq_foldl, foldl_upsert_closed _ _ hk,
    foldl_upsert_closed _ _ hk, List.filter_append, List.filter_filter]
  have h1 : (kvs.map (objRow (autoHash (.jobj kvs)))).filter
      (fun x => !keyMem x (kvs.map (objRow (autoHash (.jobj kvs))))) = [] :=
    List.filter_eq_nil_iff.mpr (fun r hr => by simp [keyMem_self hr])
  rw [h1, List.append_nil]
  congr 1
  exact List.filter_congr (fun x _ => by
    cases keyMem x (kvs.map (objRow (autoHash (.jobj kvs)))) <;> rfl)

/-- Witness for C5 at a concrete object. -/
theorem c5_insert_object_auto_hash_idempotent_witness :
    nodupB ([("a", JVal.jnull), ("b", JVal.jint 7)].map Prod.fst) = true ∧
    ((insert_object_auto_hash
        ((insert_object_auto_hash [] [("a", JVal.jnull), ("b", JVal.jint 7)]).2)
        [("a", JVal.jnull), ("b", JVal.jint 7)]).1 =
      (insert_object_auto_hash [] [("a", JVal.jnull), ("b", JVal.jint 7)]).1 ∧
    (insert_object_auto_hash
        ((insert_object_auto_hash [] [("a", JVal.jnull), ("b", JVal.jint 7)]).2)
        [("a", JVal.jnull), ("b", JVal.jint 7)]).2 =
      (insert_object_auto_hash [] [("a", JVal.jnull), ("b", JVal.jint 7)]).2) :=
  ⟨by decide,
   c5_insert_object_auto_hash_idempotent [] [("a", JVal.jnull), ("b", JVal.jint 7)]
     (by decide)⟩

/-- C10: `insert_object` under one fingerprint leaves every other
fingerprint's stored rows unchanged: `retrieve_object` for a different
fingerprint returns the same dict before and after the insert. -/
theorem c10_insert_object_frame (t : List Row) (h h' : String)
    (kvs : List (String × JVal)) (hne : h' ≠ h) :
    retrieve_object (insert_object t h kvs) h' = retrieve_object t h' := by
  unfold retrieve_object
  rw [filter_hash_insert_object t h h' kvs hne]

/-- Witness for C10 at a concrete table and fingerprints. -/
theorem c10_insert_object_frame_witness :
    ("b2" : String) ≠ "a1" ∧
    retrieve_object
        (insert_object [⟨"b2", "k", some "7", none⟩] "a1" [("k", JVal.jnull)]) "b2" =
      retrieve_object [⟨"b2", "k", some "7", none⟩] "b2" :=
  ⟨by decide,
   c10_insert_object_frame [⟨"b2", "k", some "7", none⟩] "a1" "b2" [("k", JVal.jnull)]
     (by decide)⟩

/-- C4 (amended): retrieving a fingerprint that has no stored rows silently
returns the empty dict; `retrieve_object` has no failure path for an unknown
fingerprint. -/
theorem c4_retrieve_object_no_rows_returns_empty (t : List Row) (h : String)
    (habs : ∀ r ∈ t, r.hash ≠ h) :
    retrieve_object t h = some [] :=
  retrieve_object_of_no_rows t h habs

/-- Witness for C4 at a concrete table. -/
theorem c4_retrieve_object_no_rows_returns_empty_witness :
    (∀ r ∈ [(⟨"a1", "k", some "7", none⟩ : Row)], r.hash ≠ "deadbeef") ∧
    retrieve_object [(⟨"a1", "k", some "7", none⟩ : Row)] "deadbeef" = some [] :=
  ⟨by decide,
   c4_retrieve_object_no_rows_returns_empty [⟨"a1", "k", some "7", none⟩] "deadbeef"
     (by decide)⟩

/-- C4, counterexample to the claim as stated: retrieval of a fingerprint
with zero rows does not fail — it returns the empty object. -/
theorem c4_retrieve_unknown_is_empty_not_error :
    retrieve_object [] "deadbeef" = some [] ∧
    retrieve_object [] "deadbeef" ≠ none := by
  refine ⟨rfl, ?_⟩
  show (some [] : Option (List (String × JVal))) ≠ none
  simp

/-- C2 (amended): the batch insert returns the same fingerprint sequence, in
input order, as repeated single inserts, and produces the same rows except
that it leaves every written `property_json_sha1` NULL where the single
insert stores the member digest. -/
theorem c2_batch_equals_seq_mod_null_digest (t : List Row)
    (objs : List (List (String × JVal))) :
    (insert_objects_auto_hash t objs).1 = (insert_objects_seq t objs).1 ∧
    stripSha (insert_objects_auto_hash t objs).2 =
      stripSha (insert_objects_seq t objs).2 := by
  unfold insert_objects_auto_hash insert_objects_seq
  exact batch_seq_aux objs [] t t rfl

/-- C2, counterexample to the claim as stated: after one batched object the
table state differs from the sequential insert's state (the digest column is
NULL), even though the fingerprints agree. -/
theorem c2_batch_state_differs_from_seq :
    (insert_objects_auto_hash [] [[("a", JVal.jbool true)]]).1 =
      (insert_objects_seq [] [[("a", JVal.jbool true)]]).1 ∧
    (insert_objects_auto_hash [] [[("a", JVal.jbool true)]]).2 ≠
      (insert_objects_seq [] [[("a", JVal.jbool true)]]).2 := by
  refine ⟨rfl, ?_⟩
  intro heq
  have h2 := congrArg (List.map (fun r => r.psha)) heq
  simp only [insert_objects_auto_hash, insert_objects_seq, batchInsertOne,
    insert_object_auto_hash, insert_object, upsert, batchRow, objRow,
    List.foldl_cons, List.foldl_nil, List.filter_nil, List.nil_append,
    List.map_cons, List.map_nil] at h2
  simp at h2

/-- C6 (amended): on every reachable table state, each stored row's
`property_json` is the canonical text of a member value, and its
`property_json_sha1` is either the SHA-1 digest of that text or NULL (the
batch insert's rows). -/
theorem c6_rows_carry_canonical_text_and_digest_or_null (ops : List Op) :
    ∀ r ∈ runOps ops, goodRow r := by
  suffices h : ∀ t, (∀ x ∈ t, goodRow x) → ∀ r ∈ ops.foldl applyOp t, goodRow r by
    exact h [] (by simp)
  induction ops with
  | nil => intro t ht; simpa using ht
  | cons op ops ih =>
    intro t ht
    simp only [List.foldl_cons]
    exact ih _ (applyOp_good ht op)

/-- Witness for C6 at a concrete operation sequence. -/
theorem c6_rows_carry_canonical_text_and_digest_or_null_witness :
    objRow "h1" ("a", JVal.jnull) ∈ runOps [Op.single "h1" [("a", JVal.jnull)]] ∧
    goodRow (objRow "h1" ("a", JVal.jnull)) :=
  ⟨List.mem_singleton.mpr rfl,
   c6_rows_carry_canonical_text_and_digest_or_null [Op.single "h1" [("a", JVal.jnull)]]
     _ (List.mem_singleton.mpr rfl)⟩

/-- C9: a scalar (non-object, non-array) top-level value is rejected — the
insert fails (Python's `AttributeError` on the missing `.items()`, the
spec's `NotAContainer`) and no row is written. -/
theorem c9_scalar_insert_rejected (t : List Row) (h : String) (v : JVal)
    (hs : isScalar v = true) :
    insert_object_checked t h v = .error .notAContainer := by
  cases v <;> simp_all [isScalar, insert_object_checked]

/-- Witness for C9 at a concrete scalar. -/
theorem c9_scalar_insert_rejected_witness :
    isScalar (JVal.jint 5) = true ∧
    insert_object_checked [] "h1" (JVal.jint 5) = .error .notAContainer :=
  ⟨rfl, c9_scalar_insert_rejected [] "h1" (JVal.jint 5) rfl⟩

/-- C6, counterexample to the claim as stated: a batch-inserted row stores
the canonical member text but a NULL `property_json_sha1`, not the digest. -/
theorem c6_batch_row_has_null_digest :
    ∃ r ∈ (insert_objects_auto_hash [] [[("a", JVal.jbool true)]]).2,
      r.pjson = some (canonical_json (JVal.jbool true)) ∧
      r.psha ≠ some (sha1Hex (utf8Bytes (canonical_json (JVal.jbool true)))) := by
  refine ⟨batchRow (autoHash (.jobj [("a", JVal.jbool true)])) ("a", JVal.jbool true),
    ?_, rfl, by simp [batchRow]⟩
  exact List.mem_singleton.mpr rfl

/-! Determinism of the canonical encoding: the canonical member ordering is
insensitive to the construction order of the key-value list. -/

lemma keyLe_trans : ∀ a b c : String × JVal, keyLe a b → keyLe b c → keyLe a c := by
  intro a b c hab hbc
  simp only [keyLe, decide_eq_true_eq] at *
  exact le_trans hab hbc

lemma keyLe_total : ∀ a b : String × JVal, keyLe a b || keyLe b a := by
  intro a b
  simp only [keyLe]
  rcases le_total a.1 b.1 with h | h <;> simp [h]

lemma sortKvs_perm (kvs : List (String × JVal)) : (sortKvs kvs).Perm kvs :=
  List.mergeSort_perm kvs keyLe

lemma sortKvs_sorted (kvs : List (String × JVal)) :
    (sortKvs kvs).Pairwise (fun a b => a.1 ≤ b.1) := by
  have h := List.sorted_mergeSort keyLe_trans keyLe_total kvs
  exact h.imp (fun hab => by simpa [keyLe, decide_eq_true_eq] using hab)

lemma sortKvs_eq_of_perm {kvs1 kvs2 : List (String × JVal)} (hperm : kvs1.Perm kvs2)
    (hnd : (kvs1.map Prod.fst).Nodup) : sortKvs kvs1 = sortKvs kvs2 := by
  have hp : (sortKvs kvs1).Perm (sortKvs kvs2) :=
    (sortKvs_perm kvs1).trans (hperm.trans (sortKvs_perm kvs2).symm)
  have hnd1 : ((sortKvs kvs1).map Prod.fst).Nodup :=
    hnd.perm ((sortKvs_perm kvs1).map Prod.fst).symm
  have hnd2 : ((sortKvs kvs2).map Prod.fst).Nodup :=
    hnd1.perm (hp.map Prod.fst)
  have hs1 : (sortKvs kvs1).Pairwise (fun a b : String × JVal => a.1 < b.1) := by
    have hne := (List.pairwise_map.mp hnd1)
    exact ((sortKvs_sorted kvs1).and hne).imp
      (fun hab => lt_of_le_of_ne hab.1 hab.2)
  have hs2 : (sortKvs kvs2).Pairwise (fun a b : String × JVal => a.1 < b.1) := by
    have hne := (List.pairwise_map.mp hnd2)
    exact ((sortKvs_sorted kvs2).and hne).imp
      (fun hab => lt_of_le_of_ne hab.1 hab.2)
  haveI : IsAntisymm (String × JVal) (fun a b => a.1 < b.1) :=
    ⟨fun a b hab hba => absurd (lt_trans hab hba) (lt_irrefl _)⟩
  exact List.eq_of_perm_of_sorted hp hs1 hs2

/-- C8: two objects holding the same key-value pairs, constructed with keys
in different insertion orders, have byte-identical canonical encodings, and
`insert_object_auto_hash` returns the same fingerprint for both. -/
theorem c8_canonical_encoding_deterministic (kvs1 kvs2 : List (String × JVal))
    (hperm : kvs1.Perm kvs2) (hnd : nodupB (kvs1.map Prod.fst) = true)
    (t1 t2 : List Row) :
    canonical_json (.jobj kvs1) = canonical_json (.jobj kvs2) ∧
    (insert_object_auto_hash t1 kvs1).1 = (insert_object_auto_hash t2 kvs2).1 := by
  have hsort := sortKvs_eq_of_perm hperm ((nodupB_iff _).mp hnd)
  have henc : canonical_json (.jobj kvs1) = canonical_json (.jobj kvs2) := by
    unfold canonical_json
    rw [encV, encV, hsort]
  refine ⟨henc, ?_⟩
  show autoHash (.jobj kvs1) = autoHash (.jobj kvs2)
  unfold autoHash
  rw [henc]

/-- Witness for C8 at the spec's Scenario A. -/
theorem c8_canonical_encoding_deterministic_witness :
    List.Perm [("b", JVal.jint 1), ("a", JVal.jint 2)] [("a", JVal.jint 2), ("b", JVal.jint 1)] ∧
    nodupB ([("b", JVal.jint 1), ("a", JVal.jint 2)].map Prod.fst) = true ∧
    (canonical_json (.jobj [("b", JVal.jint 1), ("a", JVal.jint 2)]) =
      canonical_json (.jobj [("a", JVal.jint 2), ("b", JVal.jint 1)]) ∧
    (insert_object_auto_hash [] [("b", JVal.jint 1), ("a", JVal.jint 2)]).1 =
      (insert_object_auto_hash [] [("a", JVal.jint 2), ("b", JVal.jint 1)]).1) :=
  ⟨List.Perm.swap ("a", JVal.jint 2) ("b", JVal.jint 1) [], by decide,
   c8_canonical_encoding_deterministic _ _
     (List.Perm.swap ("a", JVal.jint 2) ("b", JVal.jint 1) []) (by decide) [] []⟩

/-! Round-trip of the canonical grammar, part 1: digits and numbers. -/

lemma digitChar_isDigit (d : Nat) (h : d < 10) : (Nat.digitChar d).isDigit = true := by
  interval_cases d <;> decide

lemma charVal_digitChar (d : Nat) (h : d < 10) : charVal (Nat.digitChar d) = d := by
  interval_cases d <;> decide

lemma hexVal_digitChar (d : Nat) (h : d < 16) : hexVal (Nat.digitChar d) = d := by
  interval_cases d <;> decide

lemma isHexCh_digitChar (d : Nat) (h : d < 16) : isHexCh (Nat.digitChar d) = true := by
  interval_cases d <;> decide

lemma digitChar_ne (d : Nat) (h : d < 10) :
    Nat.digitChar d ≠ 'n' ∧ Nat.digitChar d ≠ 't' ∧ Nat.digitChar d ≠ 'f' ∧
    Nat.digitChar d ≠ '"' ∧ Nat.digitChar d ≠ '[' ∧ Nat.digitChar d ≠ lcurly ∧
    Nat.digitChar d ≠ '-' ∧ Nat.digitChar d ≠ '.' ∧ Nat.digitChar d ≠ ']' ∧
    Nat.digitChar d ≠ rcurly ∧ Nat.digitChar d ≠ ',' ∧ Nat.digitChar d ≠ ':' := by
  interval_cases d <;> decide

lemma natLit_ne_nil (n : Nat) : natLit n ≠ [] := by
  unfold natLit
  by_cases h : n = 0
  · simp [h]
  · simp only [h, if_false]
    intro hc
    have hne : Nat.digits 10 n ≠ [] := Nat.digits_ne_nil_iff_ne_zero.mpr h
    simp at hc
    exact hne hc

lemma natLit_all (n : Nat) : ∀ c ∈ natLit n, ∃ d, d < 10 ∧ c = Nat.digitChar d := by
  unfold natLit
  by_cases h : n = 0
  · simp only [h, if_true]
    intro c hc
    rw [List.mem_singleton] at hc
    exact ⟨0, by omega, hc⟩
  · simp only [h, if_false]
    intro c hc
    rw [List.mem_map] at hc
    obtain ⟨d, hd, rfl⟩ := hc
    rw [List.mem_reverse] at hd
    exact ⟨d, Nat.digits_lt_base (by norm_num) hd, rfl⟩

lemma natLit_head (n : Nat) :
    ∃ d cs, d < 10 ∧ natLit n = Nat.digitChar d :: cs := by
  cases hl : natLit n with
  | nil => exact absurd hl (natLit_ne_nil n)
  | cons c cs =>
    obtain ⟨d, hd, rfl⟩ := natLit_all n c (hl ▸ List.mem_cons_self c cs)
    exact ⟨d, cs, hd, rfl⟩

lemma foldl_digitChar (l : List Nat) (hl : ∀ d ∈ l, d < 10) : ∀ a : Nat,
    (l.map Nat.digitChar).foldl (fun acc c => acc * 10 + charVal c) a =
      l.foldl (fun acc d => acc * 10 + d) a := by
  induction l with
  | nil => intro a; rfl
  | cons d l ih =>
    intro a
    simp only [List.map_cons, List.foldl_cons]
    rw [charVal_digitChar d (hl d (List.mem_cons_self d l))]
    exact ih (fun x hx => hl x (List.mem_cons_of_mem d hx)) _

lemma foldl_base10 (l : List Nat) : ∀ a : Nat,
    l.reverse.foldl (fun acc d => acc * 10 + d) a =
      a * 10 ^ l.length + Nat.ofDigits 10 l := by
  induction l with
  | nil => intro a; simp
  | cons d l ih =>
    intro a
    simp only [List.reverse_cons, List.foldl_append, List.foldl_cons, List.foldl_nil,
      ih a, Nat.ofDigits_cons, List.length_cons]
    ring

lemma digitsVal_natLit (n : Nat) : digitsVal (natLit n) = n := by
  unfold digitsVal natLit
  by_cases h : n = 0
  · simp [h, charVal]
  · simp only [h, if_false]
    rw [foldl_digitChar _ (fun d hd =>
      Nat.digits_lt_base (by norm_num) (List.mem_reverse.mp hd)) 0]
    have : (Nat.digits 10 n).reverse.reverse = Nat.digits 10 n := List.reverse_reverse _
    rw [show (Nat.digits 10 n).reverse = ((Nat.digits 10 n).reverse.reverse).reverse by
      rw [this]]
    rw [foldl_base10, this, Nat.ofDigits_digits]
    simp

lemma takeWhile_digits (l r : List Char) (hl : ∀ c ∈ l, c.isDigit = true)
    (hr : headNotDigit r = true) :
    (l ++ r).takeWhile Char.isDigit = l ∧ (l ++ r).dropWhile Char.isDigit = r := by
  induction l with
  | nil =>
    simp only [List.nil_append]
    cases r with
    | nil => exact ⟨rfl, rfl⟩
    | cons c r =>
      simp only [headNotDigit, Bool.not_eq_true'] at hr
      rw [List.takeWhile_cons, List.dropWhile_cons]
      simp [hr]
  | cons c l ih =>
    have hc := hl c (List.mem_cons_self c l)
    obtain ⟨h1, h2⟩ := ih (fun x hx => hl x (List.mem_cons_of_mem c hx))
    simp only [List.cons_append, List.takeWhile_cons, List.dropWhile_cons, hc]
    simp [h1, h2]

lemma span_digits (l r : List Char) (hl : ∀ c ∈ l, c.isDigit = true)
    (hr : headNotDigit r = true) :
    (l ++ r).span Char.isDigit = (l, r) := by
  rw [List.span_eq_take_drop]
  obtain ⟨h1, h2⟩ := takeWhile_digits l r hl hr
  rw [h1, h2]

lemma natLit_isDigit (n : Nat) : ∀ c ∈ natLit n, c.isDigit = true := by
  intro c hc
  obtain ⟨d, hd, rfl⟩ := natLit_all n c hc
  exact digitChar_isDigit d hd

lemma headNotDigit_of_numSafe {r : List Char} (h : numSafe r = true) :
    headNotDigit r = true := by
  cases r with
  | nil => rfl
  | cons c r =>
    simp only [numSafe, Bool.and_eq_true] at h
    simpa [headNotDigit] using h.1

lemma natLit_isEmpty (n : Nat) : (natLit n).isEmpty = false := by
  cases hl : natLit n with
  | nil => exact absurd hl (natLit_ne_nil n)
  | cons c cs => rfl

lemma parseNumCore_int (neg : Bool) (n : Nat) (rest : List Char)
    (hrest : numSafe rest = true) :
    parseNumCore neg (natLit n ++ rest) =
      some (.jint (if neg then -(n : Int) else (n : Int)), rest) := by
  unfold parseNumCore
  rw [span_digits (natLit n) rest (natLit_isDigit n) (headNotDigit_of_numSafe hrest)]
  simp only [natLit_isEmpty, Bool.false_eq_true, if_false]
  cases rest with
  | nil => simp [digitsVal_natLit]
  | cons c r =>
    simp only [numSafe, Bool.and_eq_true, Bool.not_eq_true'] at hrest
    split
    · rename_i heq
      rw [List.cons.injEq] at heq
      rw [heq.1] at hrest
      simp at hrest
    · simp [digitsVal_natLit]

lemma parseNumCore_flt (neg : Bool) (ip : Nat) (frac : List Nat) (rest : List Char)
    (hfr : frac ≠ []) (hfd : ∀ d ∈ frac, d < 10) (hrest : numSafe rest = true) :
    parseNumCore neg (natLit ip ++ ('.' :: (frac.map Nat.digitChar ++ rest))) =
      some (.jflt neg ip frac, rest) := by
  unfold parseNumCore
  rw [span_digits (natLit ip) ('.' :: (frac.map Nat.digitChar ++ rest))
    (natLit_isDigit ip) (by simp [headNotDigit])]
  simp only [natLit_isEmpty, Bool.false_eq_true, if_false]
  rw [span_digits (frac.map Nat.digitChar) rest
    (fun c hc => by
      obtain ⟨d, hd, rfl⟩ := List.mem_map.mp hc
      exact digitChar_isDigit d (hfd d hd))
    (headNotDigit_of_numSafe hrest)]
  have hfe : (frac.map Nat.digitChar).isEmpty = false := by
    cases frac with
    | nil => exact absurd rfl hfr
    | cons d ds => rfl
  simp only [hfe, Bool.false_eq_true, if_false, digitsVal_natLit]
  congr 2
  rw [List.map_map]
  have : ∀ d ∈ frac, (charVal ∘ Nat.digitChar) d = id d := fun d hd =>
    charVal_digitChar d (hfd d hd)
  rw [List.map_congr_left this, List.map_id]

lemma parseNum_dash (cs : List Char) : parseNum ('-' :: cs) = parseNumCore true cs := by
  simp [parseNum]

lemma parseNum_digit (d : Nat) (hd : d < 10) (cs : List Char) :
    parseNum (Nat.digitChar d :: cs) = parseNumCore false (Nat.digitChar d :: cs) := by
  have hne := (digitChar_ne d hd).2.2.2.2.2.2.1
  simp [parseNum, hne]

lemma parseVal_to_parseNum (fuel : Nat) (c : Char) (cs : List Char)
    (h : c = '-' ∨ ∃ d, d < 10 ∧ c = Nat.digitChar d) :
    parseVal (fuel + 1) (c :: cs) = parseNum (c :: cs) := by
  rcases h with rfl | ⟨d, hd, rfl⟩
  · simp only [parseVal]
    rw [if_neg (by decide), if_neg (by decide), if_neg (by decide), if_neg (by decide),
      if_neg (by decide), if_neg (by decide)]
  · obtain ⟨h1, h2, h3, h4, h5, h6, _⟩ := digitChar_ne d hd
    simp only [parseVal]
    rw [if_neg h1, if_neg h2, if_neg h3, if_neg h4, if_neg h5, if_neg h6]

/-! Round-trip of the canonical grammar, part 2: literals and strings. -/

lemma strip_append (ts rest : List Char) : strip ts (ts ++ rest) = some rest := by
  induction ts with
  | nil => rfl
  | cons t ts ih => simp [strip, ih]

lemma parseVal_jnull (fuel : Nat) (rest : List Char) :
    parseVal (fuel + 1) (encV .jnull ++ rest) = some (.jnull, rest) := by
  have he : encV .jnull = ['n', 'u', 'l', 'l'] := by simp [encV]
  rw [he]
  simp [parseVal, strip]

lemma parseVal_jtrue (fuel : Nat) (rest : List Char) :
    parseVal (fuel + 1) (encV (.jbool true) ++ rest) = some (.jbool true, rest) := by
  have he : encV (.jbool true) = ['t', 'r', 'u', 'e'] := by simp [encV]
  rw [he]
  simp [parseVal, strip]

lemma parseVal_jfalse (fuel : Nat) (rest : List Char) :
    parseVal (fuel + 1) (encV (.jbool false) ++ rest) = some (.jbool false, rest) := by
  have he : encV (.jbool false) = ['f', 'a', 'l', 's', 'e'] := by simp [encV]
  rw [he]
  simp [parseVal, strip]

lemma parseVal_jint (i : Int) (fuel : Nat) (rest : List Char)
    (hrest : numSafe rest = true) :
    parseVal (fuel + 1) (encV (.jint i) ++ rest) = some (.jint i, rest) := by
  have he : encV (.jint i) = if i < 0 then '-' :: natLit i.natAbs else natLit i.toNat := by
    simp [encV]
  rw [he]
  by_cases hi : i < 0
  · rw [if_pos hi]
    rw [List.cons_append, parseVal_to_parseNum _ _ _ (.inl rfl), parseNum_dash,
      parseNumCore_int true i.natAbs rest hrest]
    have hv : -((i.natAbs : Nat) : Int) = i := by omega
    rw [if_pos rfl, hv]
  · rw [if_neg hi]
    obtain ⟨d, cs, hd, hnl⟩ := natLit_head i.toNat
    rw [hnl, List.cons_append, parseVal_to_parseNum _ _ _ (.inr ⟨d, hd, rfl⟩),
      parseNum_digit d hd, ← List.cons_append, ← hnl,
      parseNumCore_int false i.toNat rest hrest]
    have hv : ((i.toNat : Nat) : Int) = i := by omega
    rw [if_neg (by simp), hv]

lemma parseVal_jflt (neg : Bool) (ip : Nat) (frac : List Nat) (fuel : Nat)
    (rest : List Char) (hfr : frac ≠ []) (hfd : ∀ d ∈ frac, d < 10)
    (hrest : numSafe rest = true) :
    parseVal (fuel + 1) (encV (.jflt neg ip frac) ++ rest) =
      some (.jflt neg ip frac, rest) := by
  cases neg with
  | true =>
    have he : encV (.jflt true ip frac) ++ rest =
        '-' :: (natLit ip ++ ('.' :: (frac.map Nat.digitChar ++ rest))) := by
      simp [encV]
    rw [he, parseVal_to_parseNum _ _ _ (.inl rfl), parseNum_dash,
      parseNumCore_flt true ip frac rest hfr hfd hrest]
  | false =>
    obtain ⟨d, cs, hd, hnl⟩ := natLit_head ip
    have he : encV (.jflt false ip frac) ++ rest =
        natLit ip ++ ('.' :: (frac.map Nat.digitChar ++ rest)) := by
      simp [encV]
    rw [he, hnl, List.cons_append, parseVal_to_parseNum _ _ _ (.inr ⟨d, hd, rfl⟩),
      parseNum_digit d hd, ← List.cons_append, ← hnl,
      parseNumCore_flt false ip frac rest hfr hfd hrest]

lemma parseStrBody_rt (cl : List Char) : ∀ acc rest : List Char,
    parseStrBody (cl.flatMap escChar ++ '"' :: rest) acc =
      some (String.mk (acc ++ cl), rest) := by
  induction cl with
  | nil =>
    intro acc rest
    rw [parseStrBody.eq_def]
    simp
  | cons c cl ih =>
    intro acc rest
    simp only [List.flatMap_cons, List.append_assoc]
    by_cases h1 : c = '"'
    · subst h1
      simp +decide only [escChar, reduceIte]
      simp only [List.cons_append, List.nil_append]
      rw [parseStrBody.eq_def]
      simp +decide [ih]
    · by_cases h2 : c = '\\'
      · subst h2
        simp +decide only [escChar, reduceIte]
        simp only [List.cons_append, List.nil_append]
        rw [parseStrBody.eq_def]
        simp +decide [ih]
      · by_cases h3 : c = Char.ofNat 8
        · subst h3
          simp +decide only [escChar, reduceIte]
          simp only [List.cons_append, List.nil_append]
          rw [parseStrBody.eq_def]
          simp +decide [ih]
        · by_cases h4 : c = Char.ofNat 9
          · subst h4
            simp +decide only [escChar, reduceIte]
            simp only [List.cons_append, List.nil_append]
            rw [parseStrBody.eq_def]
            simp +decide [ih]
          · by_cases h5 : c = Char.ofNat 10
            · subst h5
              simp +decide only [escChar, reduceIte]
              simp only [List.cons_append, List.nil_append]
              rw [parseStrBody.eq_def]
              simp +decide [ih]
            · by_cases h6 : c = Char.ofNat 12
              · subst h6
                simp +decide only [escChar, reduceIte]
                simp only [List.cons_append, List.nil_append]
                rw [parseStrBody.eq_def]
                simp +decide [ih]
              · by_cases h7 : c = Char.ofNat 13
                · subst h7
                  simp +decide only [escChar, reduceIte]
                  simp only [List.cons_append, List.nil_append]
                  rw [parseStrBody.eq_def]
                  simp +decide [ih]
                · by_cases h8 : c.toNat < 32
                  · have ha : isHexCh (Nat.digitChar (c.toNat / 16)) = true :=
                      isHexCh_digitChar _ (by omega)
                    have hb : isHexCh (Nat.digitChar (c.toNat % 16)) = true :=
                      isHexCh_digitChar _ (by omega)
                    have hch : Char.ofNat
                        (((hexVal '0' * 16 + hexVal '0') * 16 +
                          hexVal (Nat.digitChar (c.toNat / 16))) * 16 +
                          hexVal (Nat.digitChar (c.toNat % 16))) = c := by
                      rw [hexVal_digitChar _ (by omega), hexVal_digitChar _ (by omega)]
                      rw [show ((hexVal '0' * 16 + hexVal '0') * 16 + c.toNat / 16) * 16 +
                        c.toNat % 16 = c.toNat from by
                          rw [show hexVal '0' = 0 from rfl]; omega]
                      exact Char.ofNat_toNat c
                    simp +decide only [escChar, h1, h2, h3, h4, h5, h6, h7, h8,
                      if_false, if_true, if_pos, reduceIte]
                    simp only [List.cons_append, List.nil_append]
                    rw [parseStrBody.eq_def]
                    simp +decide [ha, hb, hch, ih]
                  · simp +decide only [escChar, h1, h2, h3, h4, h5, h6, h7, h8,
                      if_false, reduceIte]
                    simp only [List.cons_append, List.nil_append]
                    rw [parseStrBody.eq_def]
                    simp [h1, h2, ih]

lemma string_mk_data (s : String) : String.mk s.data = s := rfl

lemma parseVal_jstr (s : String) (fuel : Nat) (rest : List Char) :
    parseVal (fuel + 1) (encV (.jstr s) ++ rest) = some (.jstr s, rest) := by
  have he : encV (.jstr s) = '"' :: (s.data.flatMap escChar ++ ['"']) := by
    simp [encV, encStr]
  rw [he]
  simp only [List.cons_append, List.append_assoc, List.singleton_append]
  simp only [parseVal]
  rw [if_neg (by decide), if_neg (by decide), if_neg (by decide)]
  simp only [if_true, List.nil_append]
  rw [parseStrBody_rt s.data [] rest]
  simp [string_mk_data]

/-! Round-trip of the canonical grammar, part 3: composite values. -/

lemma wfList_forall (xs : List JVal) :
    wfList xs = true ↔ ∀ x ∈ xs, wfV x = true := by
  induction xs with
  | nil => simp [wfList]
  | cons x xs ih => simp [wfList, ih]

lemma wfKVs_forall (ms : List (String × JVal)) :
    wfKVs ms = true ↔ ∀ kv ∈ ms, wfV kv.2 = true := by
  induction ms with
  | nil => simp [wfKVs]
  | cons kv ms ih =>
    obtain ⟨k, v⟩ := kv
    simp [wfKVs, ih]

lemma wfKVs_sortKvs {kvs : List (String × JVal)} (h : wfKVs kvs = true) :
    wfKVs (sortKvs kvs) = true := by
  rw [wfKVs_forall] at h ⊢
  intro kv hkv
  exact h kv ((sortKvs_perm kvs).mem_iff.mp hkv)

lemma encV_head (v : JVal) : ∃ c cs, encV v = c :: cs ∧ c ≠ ']' := by
  cases v with
  | jnull => exact ⟨'n', ['u', 'l', 'l'], by simp [encV], by decide⟩
  | jbool b =>
    cases b with
    | true => exact ⟨'t', ['r', 'u', 'e'], by simp [encV], by decide⟩
    | false => exact ⟨'f', ['a', 'l', 's', 'e'], by simp [encV], by decide⟩
  | jint i =>
    by_cases hi : i < 0
    · exact ⟨'-', natLit i.natAbs, by simp [encV, hi], by decide⟩
    · obtain ⟨d, cs, hd, hnl⟩ := natLit_head i.toNat
      exact ⟨Nat.digitChar d, cs, by simp [encV, hi, hnl],
        (digitChar_ne d hd).2.2.2.2.2.2.2.2.1⟩
  | jflt neg ip frac =>
    cases neg with
    | true =>
      exact ⟨'-', natLit ip ++ '.' :: frac.map Nat.digitChar, by simp [encV],
        by decide⟩
    | false =>
      obtain ⟨d, cs, hd, hnl⟩ := natLit_head ip
      exact ⟨Nat.digitChar d, cs ++ '.' :: frac.map Nat.digitChar,
        by simp [encV, hnl], (digitChar_ne d hd).2.2.2.2.2.2.2.2.1⟩
  | jstr s =>
    exact ⟨'"', s.data.flatMap escChar ++ ['"'], by simp [encV, encStr], by decide⟩
  | jarr xs => exact ⟨'[', encList xs ++ [']'], by simp [encV], by decide⟩
  | jobj kvs =>
    exact ⟨lcurly, encMembers (sortKvs kvs) ++ [rcurly], by simp [encV], by decide⟩

lemma parseElems_step (fuel : Nat) (v : JVal) (rest : List Char) :
    parseElems (fuel + 1) (encV v ++ rest) =
      (parseVal fuel (encV v ++ rest)).bind fun p =>
        match p.2 with
        | ',' :: r2 => (parseElems fuel r2).bind fun q => some (p.1 :: q.1, q.2)
        | ']' :: r2 => some ([p.1], r2)
        | _ => none := by
  obtain ⟨c, cs, hv, hne⟩ := encV_head v
  rw [hv, List.cons_append]
  simp only [parseElems]
  rw [if_neg hne]

mutual

/-- Parsing inverts the canonical encoder on well-formed values. -/
theorem parseVal_enc : ∀ v : JVal, wfV v = true → ∀ fuel : Nat, fuelV v ≤ fuel →
    ∀ rest : List Char, numSafe rest = true →
    parseVal fuel (encV v ++ rest) = some (canonV v, rest)
  | .jnull, _, fuel, hf, rest, _ => by
    cases fuel with
    | zero => simp only [fuelV] at hf; omega
    | succ f => rw [parseVal_jnull]; simp [canonV]
  | .jbool true, _, fuel, hf, rest, _ => by
    cases fuel with
    | zero => simp only [fuelV] at hf; omega
    | succ f => rw [parseVal_jtrue]; simp [canonV]
  | .jbool false, _, fuel, hf, rest, _ => by
    cases fuel with
    | zero => simp only [fuelV] at hf; omega
    | succ f => rw [parseVal_jfalse]; simp [canonV]
  | .jint i, _, fuel, hf, rest, hrest => by
    cases fuel with
    | zero => simp only [fuelV] at hf; omega
    | succ f => rw [parseVal_jint i f rest hrest]; simp [canonV]
  | .jflt neg ip frac, hwf, fuel, hf, rest, hrest => by
    cases fuel with
    | zero => simp only [fuelV] at hf; omega
    | succ f =>
      simp only [wfV, Bool.and_eq_true] at hwf
      have hfr : frac ≠ [] := by
        intro hc
        rw [hc] at hwf
        simp at hwf
      have hfd : ∀ d ∈ frac, d < 10 := by
        intro d hd
        have := List.all_eq_true.mp hwf.2 d hd
        simpa using this
      rw [parseVal_jflt neg ip frac f rest hfr hfd hrest]
      simp [canonV]
  | .jstr s, _, fuel, hf, rest, _ => by
    cases fuel with
    | zero => simp only [fuelV] at hf; omega
    | succ f => rw [parseVal_jstr]; simp [canonV]
  | .jarr xs, hwf, fuel, hf, rest, _ => by
    cases fuel with
    | zero => simp only [fuelV] at hf; omega
    | succ f =>
      have hxs : wfList xs = true := by simpa [wfV] using hwf
      have hfl : fuelL xs ≤ f := by
        have h2 : fuelV (.jarr xs) = 1 + fuelL xs := by simp [fuelV]
        omega
      have he : encV (.jarr xs) ++ rest = '[' :: (encList xs ++ (']' :: rest)) := by
        simp [encV]
      rw [he]
      simp only [parseVal]
      rw [if_neg (by decide), if_neg (by decide), if_neg (by decide),
        if_neg (by decide)]
      simp only [if_true]
      rw [parseElems_enc xs hxs f hfl rest]
      simp [canonV]
  | .jobj kvs, hwf, fuel, hf, rest, _ => by
    cases fuel with
    | zero => simp only [fuelV] at hf; omega
    | succ f =>
      have hkw : wfKVs (sortKvs kvs) = true := wfKVs_sortKvs (by
        simp only [wfV, Bool.and_eq_true] at hwf
        exact hwf.2)
      have hfm : fuelM (sortKvs kvs) ≤ f := by
        have h2 : fuelV (.jobj kvs) = 1 + fuelM (sortKvs kvs) := by simp [fuelV]
        omega
      have he : encV (.jobj kvs) ++ rest =
          lcurly :: (encMembers (sortKvs kvs) ++ (rcurly :: rest)) := by
        simp [encV]
      rw [he]
      simp only [parseVal]
      rw [if_neg (by decide), if_neg (by decide), if_neg (by decide),
        if_neg (by decide), if_neg (by decide)]
      simp only [if_true]
      rw [parseMembers_enc (sortKvs kvs) hkw f hfm rest]
      simp [canonV]
termination_by v => sizeOf v
decreasing_by
  all_goals simp_wf
  all_goals
    (have h := (List.mergeSort_perm kvs keyLe).sizeOf_eq_sizeOf
     simp only [sortKvs]
     omega)

/-- Parsing inverts the encoder on comma-separated element lists. -/
theorem parseElems_enc : ∀ xs : List JVal, wfList xs = true →
    ∀ fuel : Nat, fuelL xs ≤ fuel → ∀ rest : List Char,
    parseElems fuel (encList xs ++ (']' :: rest)) = some (canonList xs, rest)
  | [], _, fuel, _, rest => by
    have he : encList [] ++ (']' :: rest) = ']' :: rest := by simp [encList]
    rw [he]
    rw [parseElems.eq_def]
    simp [canonList]
  | [x], hwf, fuel, hf, rest => by
    cases fuel with
    | zero => simp only [fuelL] at hf; omega
    | succ f =>
      have hwx : wfV x = true := by
        have := hwf
        simp [wfList] at this
        exact this
      have hfx : fuelV x ≤ f := by
        have h2 : fuelL [x] = 1 + max (fuelV x) (fuelL []) := by simp [fuelL]
        have h1 : fuelV x ≤ max (fuelV x) (fuelL []) := le_max_left _ _
        omega
      have he : encList [x] ++ (']' :: rest) = encV x ++ (']' :: rest) := by
        simp [encList]
      rw [he, parseElems_step f x (']' :: rest),
        parseVal_enc x hwx f hfx (']' :: rest) rfl]
      simp [canonList]
  | x :: y :: rest', hwf, fuel, hf, rest => by
    cases fuel with
    | zero => simp only [fuelL] at hf; omega
    | succ f =>
      have hwx : wfV x = true := by
        have := hwf
        simp [wfList] at this
        exact this.1
      have hwr : wfList (y :: rest') = true := by
        have := hwf
        simp [wfList] at this
        simp [wfList, this.2.1, this.2.2]
      have hfx : fuelV x ≤ f := by
        have h2 : fuelL (x :: y :: rest') = 1 + max (fuelV x) (fuelL (y :: rest')) := by
          simp [fuelL]
        have h1 : fuelV x ≤ max (fuelV x) (fuelL (y :: rest')) := le_max_left _ _
        omega
      have hfr : fuelL (y :: rest') ≤ f := by
        have h2 : fuelL (x :: y :: rest') = 1 + max (fuelV x) (fuelL (y :: rest')) := by
          simp [fuelL]
        have h1 : fuelL (y :: rest') ≤ max (fuelV x) (fuelL (y :: rest')) :=
          le_max_right _ _
        omega
      have he : encList (x :: y :: rest') ++ (']' :: rest) =
          encV x ++ (',' :: (encList (y :: rest') ++ (']' :: rest))) := by
        simp [encList]
      rw [he, parseElems_step f x _,
        parseVal_enc x hwx f hfx (',' :: (encList (y :: rest') ++ (']' :: rest))) rfl]
      simp only [Option.some_bind]
      rw [parseElems_enc (y :: rest') hwr f hfr rest]
      simp [canonList]
termination_by xs => sizeOf xs
decreasing_by all_goals simp_wf <;> omega

/-- Parsing inverts the encoder on comma-separated member lists. -/
theorem parseMembers_enc : ∀ ms : List (String × JVal), wfKVs ms = true →
    ∀ fuel : Nat, fuelM ms ≤ fuel → ∀ rest : List Char,
    parseMembers fuel (encMembers ms ++ (rcurly :: rest)) = some (canonKVs ms, rest)
  | [], _, fuel, _, rest => by
    have he : encMembers [] ++ (rcurly :: rest) = rcurly :: rest := by
      simp [encMembers]
    rw [he]
    rw [parseMembers.eq_def]
    simp [canonKVs]
  | [(k, v)], hwf, fuel, hf, rest => by
    cases fuel with
    | zero => simp only [fuelM] at hf; omega
    | succ f =>
      have hwv : wfV v = true := by
        have := hwf
        simp [wfKVs] at this
        exact this
      have hfx : fuelV v ≤ f := by
        have h2 : fuelM [(k, v)] = 1 + max (fuelV v) (fuelM []) := by simp [fuelM]
        have h1 : fuelV v ≤ max (fuelV v) (fuelM []) := le_max_left _ _
        omega
      have he : encMembers [(k, v)] ++ (rcurly :: rest) =
          '"' :: (k.data.flatMap escChar ++
            ('"' :: (':' :: (encV v ++ (rcurly :: rest))))) := by
        simp [encMembers, encStr]
      rw [he]
      simp only [parseMembers]
      rw [if_neg (by decide)]
      simp only [if_true, reduceIte]
      rw [show (k.data.flatMap escChar ++ ('"' :: (':' :: (encV v ++ (rcurly :: rest)))))
        = (k.data.flatMap escChar ++ '"' :: (':' :: (encV v ++ (rcurly :: rest))))
        from rfl]
      rw [parseStrBody_rt k.data [] (':' :: (encV v ++ (rcurly :: rest)))]
      simp only [Option.some_bind, List.nil_append, string_mk_data]
      rw [parseVal_enc v hwv f hfx (rcurly :: rest) rfl]
      simp only [Option.some_bind]
      rw [if_neg (by decide : ¬(rcurly = ','))]
      simp [canonKVs]
  | (k, v) :: kv2 :: rest', hwf, fuel, hf, rest => by
    cases fuel with
    | zero => simp only [fuelM] at hf; omega
    | succ f =>
      have hwv : wfV v = true := by
        have := hwf
        simp [wfKVs] at this
        exact this.1
      have hwr : wfKVs (kv2 :: rest') = true := by
        have := hwf
        simp [wfKVs] at this
        obtain ⟨k2, v2⟩ := kv2
        simp [wfKVs] at this ⊢
        exact ⟨this.2.1, this.2.2⟩
      have hfx : fuelV v ≤ f := by
        have h2 : fuelM ((k, v) :: kv2 :: rest') =
            1 + max (fuelV v) (fuelM (kv2 :: rest')) := by simp [fuelM]
        have h1 : fuelV v ≤ max (fuelV v) (fuelM (kv2 :: rest')) := le_max_left _ _
        omega
      have hfr : fuelM (kv2 :: rest') ≤ f := by
        have h2 : fuelM ((k, v) :: kv2 :: rest') =
            1 + max (fuelV v) (fuelM (kv2 :: rest')) := by simp [fuelM]
        have h1 : fuelM (kv2 :: rest') ≤ max (fuelV v) (fuelM (kv2 :: rest')) :=
          le_max_right _ _
        omega
      have he : encMembers ((k, v) :: kv2 :: rest') ++ (rcurly :: rest) =
          '"' :: (k.data.flatMap escChar ++ ('"' :: (':' :: (encV v ++
            (',' :: (encMembers (kv2 :: rest') ++ (rcurly :: rest))))))) := by
        simp [encMembers, encStr]
      rw [he]
      simp only [parseMembers]
      rw [if_neg (by decide)]
      simp only [if_true, reduceIte]
      rw [show (k.data.flatMap escChar ++ ('"' :: (':' :: (encV v ++
          (',' :: (encMembers (kv2 :: rest') ++ (rcurly :: rest)))))))
        = (k.data.flatMap escChar ++ '"' :: (':' :: (encV v ++
          (',' :: (encMembers (kv2 :: rest') ++ (rcurly :: rest))))))
        from rfl]
      rw [parseStrBody_rt k.data [] _]
      simp only [Option.some_bind, List.nil_append, string_mk_data]
      rw [parseVal_enc v hwv f hfx
        (',' :: (encMembers (kv2 :: rest') ++ (rcurly :: rest))) rfl]
      simp only [Option.some_bind, reduceIte]
      rw [parseMembers_enc (kv2 :: rest') hwr f hfr rest]
      simp [canonKVs]
termination_by ms => sizeOf ms
decreasing_by all_goals simp_wf <;> omega

end

lemma natLit_len (n : Nat) : 1 ≤ (natLit n).length := by
  cases hl : natLit n with
  | nil => exact absurd hl (natLit_ne_nil n)
  | cons c cs => simp

mutual

/-- The parser fuel a value needs is at most its encoding's length. -/
theorem fuelV_le : ∀ v : JVal, fuelV v ≤ (encV v).length
  | .jnull => by simp [fuelV, encV]
  | .jbool true => by simp [fuelV, encV]
  | .jbool false => by simp [fuelV, encV]
  | .jint i => by
    have h := natLit_len i.natAbs
    have h2 := natLit_len i.toNat
    by_cases hi : i < 0 <;> (simp [fuelV, encV, hi]; try omega)
  | .jflt neg ip frac => by
    have h := natLit_len ip
    cases neg <;> (simp [fuelV, encV]; try omega)
  | .jstr s => by simp [fuelV, encV, encStr]
  | .jarr xs => by
    have h := fuelL_le xs
    have he : fuelV (.jarr xs) = 1 + fuelL xs := by simp [fuelV]
    have hlen : (encV (.jarr xs)).length = (encList xs).length + 2 := by
      simp [encV]
    omega
  | .jobj kvs => by
    have h := fuelM_le (sortKvs kvs)
    have he : fuelV (.jobj kvs) = 1 + fuelM (sortKvs kvs) := by simp [fuelV]
    have hlen : (encV (.jobj kvs)).length = (encMembers (sortKvs kvs)).length + 2 := by
      simp [encV]
    omega
termination_by v => sizeOf v
decreasing_by
  all_goals simp_wf
  all_goals
    (have h := (List.mergeSort_perm kvs keyLe).sizeOf_eq_sizeOf
     simp only [sortKvs]
     omega)

theorem fuelL_le : ∀ xs : List JVal, fuelL xs ≤ (encList xs).length + 1
  | [] => by simp [fuelL]
  | [x] => by
    have h := fuelV_le x
    have he : fuelL [x] = 1 + max (fuelV x) (fuelL []) := by simp [fuelL]
    have hm : max (fuelV x) (fuelL []) ≤ fuelV x + fuelL [] :=
      max_le (Nat.le_add_right _ _) (Nat.le_add_left _ _)
    have hz : fuelL [] = 0 := by simp [fuelL]
    have hlen : (encList [x]).length = (encV x).length := by simp [encList]
    omega
  | x :: y :: rest => by
    have h1 := fuelV_le x
    have h2 := fuelL_le (y :: rest)
    have he : fuelL (x :: y :: rest) = 1 + max (fuelV x) (fuelL (y :: rest)) := by
      simp [fuelL]
    have hm : max (fuelV x) (fuelL (y :: rest)) ≤ fuelV x + fuelL (y :: rest) :=
      max_le (Nat.le_add_right _ _) (Nat.le_add_left _ _)
    have hlen : (encList (x :: y :: rest)).length =
        (encV x).length + 1 + (encList (y :: rest)).length := by
      simp [encList]
      omega
    omega
termination_by xs => sizeOf xs
decreasing_by all_goals simp_wf <;> omega

theorem fuelM_le : ∀ ms : List (String × JVal), fuelM ms ≤ (encMembers ms).length + 1
  | [] => by simp [fuelM]
  | [(k, v)] => by
    have h := fuelV_le v
    have he : fuelM [(k, v)] = 1 + max (fuelV v) (fuelM []) := by simp [fuelM]
    have hm : max (fuelV v) (fuelM []) ≤ fuelV v + fuelM [] :=
      max_le (Nat.le_add_right _ _) (Nat.le_add_left _ _)
    have hz : fuelM [] = 0 := by simp [fuelM]
    have hlen : (encMembers [(k, v)]).length =
        (encStr k).length + 1 + (encV v).length := by
      simp [encMembers]
      omega
    omega
  | (k, v) :: kv2 :: rest => by
    have h1 := fuelV_le v
    have h2 := fuelM_le (kv2 :: rest)
    have he : fuelM ((k, v) :: kv2 :: rest) =
        1 + max (fuelV v) (fuelM (kv2 :: rest)) := by simp [fuelM]
    have hm : max (fuelV v) (fuelM (kv2 :: rest)) ≤
        fuelV v + fuelM (kv2 :: rest) :=
      max_le (Nat.le_add_right _ _) (Nat.le_add_left _ _)
    have hlen : (encMembers ((k, v) :: kv2 :: rest)).length =
        (encStr k).length + 1 + (encV v).length + 1 +
          (encMembers (kv2 :: rest)).length := by
      simp [encMembers]
      omega
    omega
termination_by ms => sizeOf ms
decreasing_by all_goals simp_wf <;> omega

end

/-- Decoding inverts encoding: `json.loads` of a well-formed value's
canonical text returns the value with all object members key-sorted. -/
theorem jsonLoads_enc (v : JVal) (hwf : wfV v = true) :
    jsonLoads (canonical_json v) = some (canonV v) := by
  unfold jsonLoads canonical_json
  rw [show (String.mk (encV v)).data = encV v from rfl]
  have h := parseVal_enc v hwf ((encV v).length + 1)
    (le_trans (fuelV_le v) (by omega)) [] rfl
  rw [List.append_nil] at h
  rw [h]
  rfl

/-! The canonical shape is a retract: sorting object members recursively is
idempotent. -/

lemma canonList_eq_map (xs : List JVal) : canonList xs = xs.map canonV := by
  induction xs with
  | nil => simp [canonList]
  | cons x xs ih => simp [canonList, ih]

lemma canonKVs_eq_map (ms : List (String × JVal)) :
    canonKVs ms = ms.map (fun kv => (kv.1, canonV kv.2)) := by
  induction ms with
  | nil => simp [canonKVs]
  | cons kv ms ih =>
    obtain ⟨k, v⟩ := kv
    simp [canonKVs, ih]

lemma sortKvs_of_sorted {l : List (String × JVal)}
    (h : l.Pairwise (fun a b => a.1 ≤ b.1)) : sortKvs l = l := by
  apply List.mergeSort_of_sorted
  exact h.imp (fun hab => by simp [keyLe, hab])

lemma canonKVs_pairwise {l : List (String × JVal)}
    (h : l.Pairwise (fun a b => a.1 ≤ b.1)) :
    (canonKVs l).Pairwise (fun a b => a.1 ≤ b.1) := by
  rw [canonKVs_eq_map]
  rw [List.pairwise_map]
  exact h

mutual

theorem canonV_idem : ∀ v : JVal, canonV (canonV v) = canonV v
  | .jnull => by simp [canonV]
  | .jbool b => by simp [canonV]
  | .jint i => by simp [canonV]
  | .jflt neg ip frac => by simp [canonV]
  | .jstr s => by simp [canonV]
  | .jarr xs => by
    simp only [canonV]
    rw [canonList_idem xs]
  | .jobj kvs => by
    simp only [canonV]
    rw [sortKvs_of_sorted (canonKVs_pairwise (sortKvs_sorted kvs)),
      canonKVs_idem (sortKvs kvs)]
termination_by v => sizeOf v
decreasing_by
  all_goals simp_wf
  all_goals
    (have h := (List.mergeSort_perm kvs keyLe).sizeOf_eq_sizeOf
     simp only [sortKvs]
     omega)

theorem canonList_idem : ∀ xs : List JVal, canonList (canonList xs) = canonList xs
  | [] => by simp [canonList]
  | x :: xs => by
    simp only [canonList]
    rw [canonV_idem x, canonList_idem xs]
termination_by xs => sizeOf xs
decreasing_by all_goals simp_wf <;> omega

theorem canonKVs_idem : ∀ ms : List (String × JVal),
    canonKVs (canonKVs ms) = canonKVs ms
  | [] => by simp [canonKVs]
  | (k, v) :: ms => by
    simp only [canonKVs]
    rw [canonV_idem v, canonKVs_idem ms]
termination_by ms => sizeOf ms
decreasing_by all_goals simp_wf <;> omega

end

/-! Characterisation of `retrieve_object` on rows this module wrote. -/

lemma dinsert_fresh {d : List (String × JVal)} {k : String} {v : JVal}
    (h : ∀ p ∈ d, p.1 ≠ k) : dinsert d (k, v) = d ++ [(k, v)] := by
  unfold dinsert
  rw [if_neg]
  intro hc
  simp only [List.any_eq_true, beq_iff_eq] at hc
  obtain ⟨p, hp, hpe⟩ := hc
  exact h p hp hpe

lemma foldlM_dinsert_eq (l : List Row) : ∀ d0 : List (String × JVal),
    ((l.map (fun r => r.name)).Nodup) → (∀ r ∈ l, ∀ p ∈ d0, p.1 ≠ r.name) →
    l.foldlM (fun d r => (rowVal r.pjson).map (fun v => dinsert d (r.name, v))) d0 =
      (l.mapM (fun r => (rowVal r.pjson).map (fun v => (r.name, v)))).map
        (fun lst => d0 ++ lst) := by
  induction l with
  | nil =>
    intro d0 _ _
    rw [List.mapM_nil]
    simp
  | cons r l ih =>
    intro d0 hnd hfresh
    simp only [List.map_cons, List.nodup_cons] at hnd
    rw [List.foldlM_cons, List.mapM_cons]
    cases hrv : rowVal r.pjson with
    | none => simp [hrv]
    | some v =>
      simp only [Option.map_some']
      rw [show (dinsert d0 (r.name, v)) =
        d0 ++ [(r.name, v)] from dinsert_fresh
          (fun p hp => hfresh r (List.mem_cons_self r l) p hp)]
      show l.foldlM _ (d0 ++ [(r.name, v)]) = _
      rw [ih (d0 ++ [(r.name, v)]) hnd.2 ?fresh]
      case fresh =>
        intro x hx p hp
        rcases List.mem_append.mp hp with hpd | hpn
        · exact hfresh x (List.mem_cons_of_mem r hx) p hpd
        · rw [List.mem_singleton] at hpn
          subst hpn
          intro hc
          have hc2 : r.name = x.name := hc
          exact hnd.1 (hc2 ▸ List.mem_map_of_mem (fun y => y.name) hx)
      cases hm : l.mapM (fun r => (rowVal r.pjson).map (fun v => (r.name, v))) with
      | none => simp [hm]
      | some lst => simp [hm]

lemma mapM_objRows (h : String) (kvs : List (String × JVal)) :
    wfKVs kvs = true →
    (kvs.map (objRow h)).mapM (fun r => (rowVal r.pjson).map (fun v => (r.name, v))) =
      some (kvs.map (fun kv => (kv.1, canonV kv.2))) := by
  induction kvs with
  | nil =>
    intro _
    rw [show ([] : List (String × JVal)).map (objRow h) = [] from rfl, List.mapM_nil]
    rfl
  | cons kv kvs ih =>
    obtain ⟨k, v⟩ := kv
    intro hwfk
    rw [show wfKVs ((k, v) :: kvs) = (wfV v && wfKVs kvs) from by simp [wfKVs]] at hwfk
    rw [Bool.and_eq_true] at hwfk
    simp only [List.map_cons, List.mapM_cons]
    rw [show rowVal (objRow h (k, v)).pjson = jsonLoads (canonical_json v) from rfl,
      jsonLoads_enc v hwfk.1]
    simp only [Option.map_some', Option.some_bind]
    rw [ih hwfk.2]
    simp [objRow]

lemma rows_names (h : String) (kvs : List (String × JVal)) :
    (kvs.map (objRow h)).map (fun r => r.name) = kvs.map Prod.fst := by
  simp [List.map_map, Function.comp, objRow]

lemma rows_filter_self (h : String) (kvs : List (String × JVal)) :
    (kvs.map (objRow h)).filter (fun r => r.hash == h) = kvs.map (objRow h) := by
  rw [List.filter_eq_self]
  intro r hr
  obtain ⟨kv, _, rfl⟩ := List.mem_map.mp hr
  simp [objRow]

/-- C1: inserting a well-formed object into a fresh table through
`insert_object_auto_hash` and retrieving by the returned fingerprint yields a
dict that is type-faithfully equal to the object: the same key set, with each
value's canonical shape preserved (integer and float values stay distinct,
null members stay null). -/
theorem c1_insert_retrieve_round_trip (kvs : List (String × JVal))
    (hwf : wfV (.jobj kvs) = true) :
    retrieve_object (insert_object_auto_hash [] kvs).2
        (insert_object_auto_hash [] kvs).1 =
      some (kvs.map (fun kv => (kv.1, canonV kv.2))) ∧
    teq (.jobj (kvs.map (fun kv => (kv.1, canonV kv.2)))) (.jobj kvs) := by
  rw [show wfV (.jobj kvs) = (nodupB (kvs.map Prod.fst) && wfKVs kvs) from by
    simp [wfV]] at hwf
  rw [Bool.and_eq_true] at hwf
  constructor
  · show retrieve_object (insert_object [] (autoHash (.jobj kvs)) kvs)
      (autoHash (.jobj kvs)) = _
    rw [insert_object_eq_foldl,
      foldl_upsert_closed _ _ (objRows_keys_nodup _ kvs hwf.1)]
    simp only [List.filter_nil, List.nil_append]
    unfold retrieve_object
    rw [rows_filter_self, foldlM_dinsert_eq _ []
      (by rw [rows_names]; exact (nodupB_iff _).mp hwf.1) (by simp),
      mapM_objRows _ kvs hwf.2]
    simp
  · show canonV (.jobj (kvs.map (fun kv => (kv.1, canonV kv.2)))) = canonV (.jobj kvs)
    simp only [canonV]
    have hagree : ∀ a ∈ kvs, ∀ b ∈ kvs, keyLe a b =
        keyLe ((fun kv => (kv.1, canonV kv.2)) a) ((fun kv => (kv.1, canonV kv.2)) b) :=
      fun a _ b _ => rfl
    have hsort : sortKvs (kvs.map (fun kv => (kv.1, canonV kv.2))) =
        (sortKvs kvs).map (fun kv => (kv.1, canonV kv.2)) :=
      (List.map_mergeSort hagree).symm
    rw [hsort, canonKVs_eq_map, canonKVs_eq_map, List.map_map]
    congr 1
    apply List.map_congr_left
    intro kv _
    simp [Function.comp, canonV_idem kv.2]

/-! Re-insertion under an existing fingerprint: per-key overwrite, with
unrelated stored keys surviving. -/

lemma keyMem_objRow (h : String) (kv : String × JVal) (kvs2 : List (String × JVal)) :
    keyMem (objRow h kv) (kvs2.map (objRow h)) =
      (kvs2.map Prod.fst).contains kv.1 := by
  induction kvs2 with
  | nil => rfl
  | cons p kvs2 ih =>
    simp only [List.map_cons, keyMem, List.any_cons, List.contains_cons]
    simp only [keyMem] at ih
    rw [ih]
    simp [objRow]

lemma filter_rows_not_keyMem (h : String) (kvs1 kvs2 : List (String × JVal)) :
    (kvs1.map (objRow h)).filter (fun x => !keyMem x (kvs2.map (objRow h))) =
      (kvs1.filter (fun kv => !((kvs2.map Prod.fst).contains kv.1))).map (objRow h) := by
  rw [List.filter_map]
  congr 1
  apply List.filter_congr
  intro kv _
  simp only [Function.comp]
  rw [keyMem_objRow]

lemma find?_canon_map (kvs : List (String × JVal)) (kv : String × JVal)
    (hnd : (kvs.map Prod.fst).Nodup) (hmem : kv ∈ kvs) :
    ((kvs.map (fun p => (p.1, canonV p.2))).find? (fun p => p.1 == kv.1)) =
      some (kv.1, canonV kv.2) := by
  induction kvs with
  | nil => cases hmem
  | cons p0 kvs ih =>
    simp only [List.map_cons, List.nodup_cons] at hnd
    rw [List.mem_cons] at hmem
    rcases hmem with rfl | hm
    · rw [List.map_cons, List.find?_cons_of_pos _ (by simp)]
    · by_cases hk : p0.1 = kv.1
      · exact absurd (List.mem_map_of_mem Prod.fst hm)
          (by rw [hk] at hnd; exact hnd.1)
      · rw [List.map_cons, List.find?_cons_of_neg _ (by simp [hk])]
        exact ih hnd.2 hm

/-- C3, counterexample to the claim as stated: after re-inserting
`{"a": 3}` under a fingerprint that already stores `{"a": 1, "b": 2}`, the
retrieved dict still contains the key `"b"` — the stored row-set is not
replaced by the new object's keys. -/
theorem c3_reinsert_keeps_unrelated_keys_counterexample :
    retrieve_object (insert_object
        (insert_object [] "h1" [("a", JVal.jint 1), ("b", JVal.jint 2)])
        "h1" [("a", JVal.jint 3)]) "h1"
      = some [("b", JVal.jint 2), ("a", JVal.jint 3)] ∧
    dictLookup [("b", JVal.jint 2), ("a", JVal.jint 3)] "b" = some (JVal.jint 2) := by
  constructor
  · show retrieve_object ([("b", JVal.jint 2), ("a", JVal.jint 3)].map (objRow "h1"))
      "h1" = _
    unfold retrieve_object
    rw [rows_filter_self "h1" [("b", JVal.jint 2), ("a", JVal.jint 3)],
      foldlM_dinsert_eq _ [] (by rw [rows_names]; decide) (by simp),
      mapM_objRows "h1" [("b", JVal.jint 2), ("a", JVal.jint 3)] rfl]
    simp [canonV]
  · rfl

/-- C3 (amended): `insert_object` under an existing fingerprint overwrites
exactly the re-supplied keys and merges with the previously stored rows:
after the second insert, every key of the new object reads back with its new
value, and every previously stored key absent from the new object survives
with its old value. -/
theorem c3_reinsert_overwrites_only_resupplied_keys (h : String)
    (kvs1 kvs2 : List (String × JVal))
    (hnd1 : nodupB (kvs1.map Prod.fst) = true)
    (hnd2 : nodupB (kvs2.map Prod.fst) = true)
    (hwf1 : wfKVs kvs1 = true) (hwf2 : wfKVs kvs2 = true) :
    ∃ d, retrieve_object (insert_object (insert_object [] h kvs1) h kvs2) h = some d ∧
      (∀ kv ∈ kvs2, dictLookup d kv.1 = some (canonV kv.2)) ∧
      (∀ kv ∈ kvs1, kv.1 ∉ kvs2.map Prod.fst →
        dictLookup d kv.1 = some (canonV kv.2)) := by
  have ht1 : insert_object [] h kvs1 = kvs1.map (objRow h) := by
    rw [insert_object_eq_foldl, foldl_upsert_closed _ _ (objRows_keys_nodup h kvs1 hnd1)]
    simp
  have ht2 : insert_object (insert_object [] h kvs1) h kvs2 =
      (kvs1.filter (fun kv => !((kvs2.map Prod.fst).contains kv.1))).map (objRow h) ++
        kvs2.map (objRow h) := by
    rw [ht1, insert_object_eq_foldl,
      foldl_upsert_closed _ _ (objRows_keys_nodup h kvs2 hnd2),
      filter_rows_not_keyMem]
  set q : String × JVal → Bool := fun kv => !((kvs2.map Prod.fst).contains kv.1) with hq
  have hsubkeys : ((kvs1.filter q).map Prod.fst).Sublist (kvs1.map Prod.fst) :=
    (List.filter_sublist kvs1).map Prod.fst
  have hnd1' : ((kvs1.filter q).map Prod.fst).Nodup :=
    ((nodupB_iff _).mp hnd1).sublist hsubkeys
  have hdisj : ∀ k ∈ (kvs1.filter q).map Prod.fst, k ∉ kvs2.map Prod.fst := by
    intro k hk
    obtain ⟨kv, hkv, rfl⟩ := List.mem_map.mp hk
    have hqkv := (List.mem_filter.mp hkv).2
    rw [hq] at hqkv
    simp only [Bool.not_eq_true'] at hqkv
    intro hc
    rw [List.contains_eq_any_beq] at hqkv
    rw [List.any_eq_false] at hqkv
    exact absurd (by simp) (hqkv kv.1 hc)
  have hwfq : wfKVs (kvs1.filter q) = true := by
    rw [wfKVs_forall]
    intro kv hkv
    exact (wfKVs_forall kvs1).mp hwf1 kv (List.mem_filter.mp hkv).1
  refine ⟨(kvs1.filter q).map (fun p => (p.1, canonV p.2)) ++
    kvs2.map (fun p => (p.1, canonV p.2)), ?_, ?_, ?_⟩
  · rw [ht2]
    unfold retrieve_object
    rw [List.filter_append, rows_filter_self, rows_filter_self,
      ← List.map_append]
    rw [foldlM_dinsert_eq _ []
        (by
          rw [rows_names, List.map_append, List.nodup_append]
          exact ⟨hnd1', (nodupB_iff _).mp hnd2, fun k hk1 hk2 => hdisj k hk1 hk2⟩)
        (by simp),
      mapM_objRows h (kvs1.filter q ++ kvs2)
        (by
          rw [wfKVs_forall]
          intro kv hkv
          rcases List.mem_append.mp hkv with hm | hm
          · exact (wfKVs_forall _).mp hwfq kv hm
          · exact (wfKVs_forall _).mp hwf2 kv hm)]
    rw [List.map_append]
    simp
  · intro kv hkv
    unfold dictLookup
    rw [List.find?_append]
    have hleft : ((kvs1.filter q).map (fun p => (p.1, canonV p.2))).find?
        (fun p => p.1 == kv.1) = none := by
      rw [List.find?_eq_none]
      intro x hx
      obtain ⟨kv', hkv', rfl⟩ := List.mem_map.mp hx
      simp only [beq_iff_eq]
      intro hc
      exact hdisj kv'.1 (List.mem_map_of_mem Prod.fst hkv')
        (hc ▸ List.mem_map_of_mem Prod.fst hkv)
    rw [hleft, Option.none_or, find?_canon_map kvs2 kv ((nodupB_iff _).mp hnd2) hkv]
    rfl
  · intro kv hkv hnotin
    unfold dictLookup
    rw [List.find?_append]
    have hmemf : kv ∈ kvs1.filter q := by
      rw [List.mem_filter]
      refine ⟨hkv, ?_⟩
      rw [hq]
      simp only [Bool.not_eq_true']
      rw [List.contains_eq_any_beq, List.any_eq_false]
      intro k hk
      simp only [beq_iff_eq]
      intro hc
      exact hnotin (hc ▸ hk)
    rw [find?_canon_map (kvs1.filter q) kv hnd1' hmemf]
    rfl

/-- Witness for C3's amended theorem at the counterexample's inputs. -/
theorem c3_reinsert_overwrites_only_resupplied_keys_witness :
    nodupB ([("a", JVal.jint 1), ("b", JVal.jint 2)].map Prod.fst) = true ∧
    nodupB ([("a", JVal.jint 3)].map Prod.fst) = true ∧
    wfKVs [("a", JVal.jint 1), ("b", JVal.jint 2)] = true ∧
    wfKVs [("a", JVal.jint 3)] = true ∧
    (∃ d, retrieve_object (insert_object (insert_object [] "h1"
        [("a", JVal.jint 1), ("b", JVal.jint 2)]) "h1" [("a", JVal.jint 3)]) "h1"
        = some d ∧
      (∀ kv ∈ [("a", JVal.jint 3)], dictLookup d kv.1 = some (canonV kv.2)) ∧
      (∀ kv ∈ [("a", JVal.jint 1), ("b", JVal.jint 2)],
        kv.1 ∉ [("a", JVal.jint 3)].map Prod.fst →
        dictLookup d kv.1 = some (canonV kv.2))) :=
  ⟨rfl, rfl, rfl, rfl,
   c3_reinsert_overwrites_only_resupplied_keys "h1"
     [("a", JVal.jint 1), ("b", JVal.jint 2)] [("a", JVal.jint 3)] rfl rfl rfl rfl⟩

/-- Witness for C1 at a concrete object covering every value shape. -/
theorem c1_insert_retrieve_round_trip_witness :
    wfV (.jobj [("b", JVal.jint 1), ("a", JVal.jflt false 1 [5]),
      ("n", JVal.jnull), ("s", JVal.jstr "x"),
      ("z", JVal.jarr [JVal.jint 2, JVal.jbool true])]) = true ∧
    (retrieve_object (insert_object_auto_hash []
        [("b", JVal.jint 1), ("a", JVal.jflt false 1 [5]),
         ("n", JVal.jnull), ("s", JVal.jstr "x"),
         ("z", JVal.jarr [JVal.jint 2, JVal.jbool true])]).2
        (insert_object_auto_hash []
        [("b", JVal.jint 1), ("a", JVal.jflt false 1 [5]),
         ("n", JVal.jnull), ("s", JVal.jstr "x"),
         ("z", JVal.jarr [JVal.jint 2, JVal.jbool true])]).1 =
      some ([("b", JVal.jint 1), ("a", JVal.jflt false 1 [5]),
         ("n", JVal.jnull), ("s", JVal.jstr "x"),
         ("z", JVal.jarr [JVal.jint 2, JVal.jbool true])].map
        (fun kv => (kv.1, canonV kv.2))) ∧
    teq (.jobj ([("b", JVal.jint 1), ("a", JVal.jflt false 1 [5]),
         ("n", JVal.jnull), ("s", JVal.jstr "x"),
         ("z", JVal.jarr [JVal.jint 2, JVal.jbool true])].map
        (fun kv => (kv.1, canonV kv.2))))
      (.jobj [("b", JVal.jint 1), ("a", JVal.jflt false 1 [5]),
         ("n", JVal.jnull), ("s", JVal.jstr "x"),
         ("z", JVal.jarr [JVal.jint 2, JVal.jbool true])])) :=
  ⟨rfl, c1_insert_retrieve_round_trip _ rfl⟩

/-! Bulk retrieval: the sort-merge pass of `retrieve_all_objects` groups the
fingerprint-ordered row stream into one dict per distinct fingerprint. -/

lemma mem_dedupConsec : ∀ (l : List String) (a : String), a ∈ dedupConsec l ↔ a ∈ l
  | [], a => by simp [dedupConsec]
  | [x], a => by simp [dedupConsec]
  | x :: y :: r, a => by
    by_cases hxy : x = y
    · rw [show dedupConsec (x :: y :: r) = dedupConsec (y :: r) from by
        simp [dedupConsec, hxy]]
      rw [mem_dedupConsec (y :: r) a]
      subst hxy
      constructor
      · intro hm
        exact List.mem_cons_of_mem x hm
      · intro hm
        rcases List.mem_cons.mp hm with rfl | hm2
        · exact List.mem_cons_self _ _
        · exact hm2
    · rw [show dedupConsec (x :: y :: r) = x :: dedupConsec (y :: r) from by
        simp [dedupConsec, hxy]]
      rw [List.mem_cons, mem_dedupConsec (y :: r) a, List.mem_cons]
      simp [List.mem_cons]
termination_by l _ => l.length

lemma dedupConsec_pairwise_lt : ∀ (l : List String),
    l.Pairwise (fun a b => a ≤ b) → (dedupConsec l).Pairwise (fun a b => a < b)
  | [] => by
    intro _
    simp [dedupConsec]
  | [x] => by
    intro _
    simp [dedupConsec]
  | x :: y :: r => by
    intro hp
    rcases List.pairwise_cons.mp hp with ⟨hx, hyr⟩
    by_cases hxy : x = y
    · rw [show dedupConsec (x :: y :: r) = dedupConsec (y :: r) from by
        simp [dedupConsec, hxy]]
      exact dedupConsec_pairwise_lt (y :: r) hyr
    · rw [show dedupConsec (x :: y :: r) = x :: dedupConsec (y :: r) from by
        simp [dedupConsec, hxy]]
      rw [List.pairwise_cons]
      refine ⟨?_, dedupConsec_pairwise_lt (y :: r) hyr⟩
      intro a ha
      have ham : a ∈ y :: r := (mem_dedupConsec (y :: r) a).mp ha
      have hxy2 : x < y := lt_of_le_of_ne (hx y (List.mem_cons_self y r)) hxy
      rcases List.mem_cons.mp ham with rfl | har
      · exact hxy2
      · exact lt_of_lt_of_le hxy2 ((List.pairwise_cons.mp hyr).1 a har)
termination_by l => l.length

lemma optionMapM_congr {α β : Type} : ∀ (l : List α) (f g : α → Option β),
    (∀ a ∈ l, f a = g a) → l.mapM f = l.mapM g := by
  intro l
  induction l with
  | nil =>
    intro f g _
    rfl
  | cons a l ih =>
    intro f g hfg
    rw [List.mapM_cons, List.mapM_cons, hfg a (List.mem_cons_self a l),
      ih f g (fun b hb => hfg b (List.mem_cons_of_mem a hb))]

lemma filter_hash_sortRows (t : List Row) (h : String) :
    (sortRows t).filter (fun r => r.hash == h) = t.filter (fun r => r.hash == h) := by
  have htrans : ∀ a b c : Row, (fun x y : Row => decide (x.hash ≤ y.hash)) a b →
      (fun x y : Row => decide (x.hash ≤ y.hash)) b c →
      (fun x y : Row => decide (x.hash ≤ y.hash)) a c := by
    intro a b c hab hbc
    simp only [decide_eq_true_eq] at hab hbc ⊢
    exact le_trans hab hbc
  have htotal : ∀ a b : Row, ((fun x y : Row => decide (x.hash ≤ y.hash)) a b ||
      (fun x y : Row => decide (x.hash ≤ y.hash)) b a) = true := by
    intro a b
    simp [le_total]
  have hpair : (t.filter (fun r => r.hash == h)).Pairwise
      (fun x y : Row => decide (x.hash ≤ y.hash)) := by
    apply List.pairwise_of_forall_mem_list
    intro a ha b hb
    have ha2 : a.hash = h := by
      have := (List.mem_filter.mp ha).2
      simpa using this
    have hb2 : b.hash = h := by
      have := (List.mem_filter.mp hb).2
      simpa using this
    simp [ha2, hb2]
  have hsub : List.Sublist (t.filter (fun r => r.hash == h))
      (List.mergeSort t (fun a b => decide (a.hash ≤ b.hash))) :=
    List.sublist_mergeSort htrans htotal hpair (List.filter_sublist t)
  have hself : (t.filter (fun r => r.hash == h)).filter (fun r => r.hash == h) =
      t.filter (fun r => r.hash == h) :=
    List.filter_eq_self.mpr (fun a ha => (List.mem_filter.mp ha).2)
  have hsub2 : List.Sublist (t.filter (fun r => r.hash == h))
      ((sortRows t).filter (fun r => r.hash == h)) := by
    rw [← hself]
    exact hsub.filter _
  have hperm : List.Perm ((sortRows t).filter (fun r => r.hash == h))
      (t.filter (fun r => r.hash == h)) :=
    (List.mergeSort_perm t _).filter _
  exact (hsub2.eq_of_length hperm.length_eq.symm).symm

lemma goAll_consume_run (h : String) :
    ∀ (rs rest : List Row) (obj : List (String × JVal)) res,
    (∀ r ∈ rs, r.hash = h) →
    goAll (rs ++ rest) (some h) obj res =
      (rs.foldlM (fun d r => (rowVal r.pjson).map (fun v => dinsert d (r.name, v)))
          obj).bind
        (fun obj2 => goAll rest (some h) obj2 res) := by
  intro rs
  induction rs with
  | nil =>
    intro rest obj res _
    simp
  | cons r rs ih =>
    intro rest obj res hall
    have hr : r.hash = h := hall r (List.mem_cons_self r rs)
    have hgo : goAll ((r :: rs) ++ rest) (some h) obj res =
        (rowVal r.pjson).bind fun v =>
          goAll (rs ++ rest) (some h) (dinsert obj (r.name, v)) res := by
      rw [List.cons_append]
      simp [goAll, hr]
    rw [hgo, List.foldlM_cons]
    cases hv : rowVal r.pjson with
    | none => simp
    | some v =>
      simp only [Option.map_some', Option.some_bind, Option.bind_eq_bind, bind,
        Option.bind_some]
      exact ih rest (dinsert obj (r.name, v)) res
        (fun x hx => hall x (List.mem_cons_of_mem r hx))

lemma goAll_split : ∀ (n : Nat) (l : List Row), l.length ≤ n →
    l.Pairwise (fun a b => a.hash ≤ b.hash) →
    (∀ res, goAll l none [] res =
      ((runs l).mapM buildObj).map (fun ds => res ++ ds)) ∧
    (∀ (h : String) (obj : List (String × JVal)) res, (∀ r ∈ l, r.hash ≠ h) →
      goAll l (some h) obj res =
        ((runs l).mapM buildObj).map (fun ds => res ++ obj :: ds)) := by
  intro n
  induction n with
  | zero =>
    intro l hlen _
    have hnil : l = [] := List.eq_nil_of_length_eq_zero (Nat.le_zero.mp hlen)
    subst hnil
    constructor
    · intro res
      rw [show runs ([] : List Row) = [] from by simp [runs], List.mapM_nil]
      simp [goAll]
    · intro h obj res _
      rw [show runs ([] : List Row) = [] from by simp [runs], List.mapM_nil]
      simp [goAll]
  | succ n ih =>
    intro l hlen hsorted
    cases l with
    | nil =>
      constructor
      · intro res
        rw [show runs ([] : List Row) = [] from by simp [runs], List.mapM_nil]
        simp [goAll]
      · intro h obj res _
        rw [show runs ([] : List Row) = [] from by simp [runs], List.mapM_nil]
        simp [goAll]
    | cons r rest =>
      rcases List.pairwise_cons.mp hsorted with ⟨hrle, hrest⟩
      have hsplit : rest.takeWhile (fun x => x.hash == r.hash) ++
          rest.dropWhile (fun x => x.hash == r.hash) = rest :=
        List.takeWhile_append_dropWhile _ rest
      have hall : ∀ x ∈ rest.takeWhile (fun x => x.hash == r.hash),
          x.hash = r.hash := by
        intro x hx
        have hp := List.mem_takeWhile_imp hx
        simpa using hp
      have hpair2 : (rest.dropWhile (fun x => x.hash == r.hash)).Pairwise
          (fun a b => a.hash ≤ b.hash) :=
        List.Pairwise.sublist (List.dropWhile_sublist _) hrest
      have hne2 : ∀ z ∈ rest.dropWhile (fun x => x.hash == r.hash),
          z.hash ≠ r.hash := by
        cases hd : rest.dropWhile (fun x => x.hash == r.hash) with
        | nil =>
          intro z hz
          cases hz
        | cons y rest3 =>
          have h0 := List.head?_dropWhile_not (fun x => x.hash == r.hash) rest
          rw [hd] at h0
          simp only [List.head?_cons] at h0
          have hyne : y.hash ≠ r.hash := by simpa using h0
          have hymem : y ∈ rest :=
            (List.dropWhile_sublist _).subset (hd ▸ List.mem_cons_self y rest3)
          have hylt : r.hash < y.hash := lt_of_le_of_ne (hrle y hymem) (Ne.symm hyne)
          have hp2 := hpair2
          rw [hd] at hp2
          rcases List.pairwise_cons.mp hp2 with ⟨hyle, _⟩
          intro z hz
          rcases List.mem_cons.mp hz with rfl | hz3
          · exact hyne
          · exact ne_of_gt (lt_of_lt_of_le hylt (hyle z hz3))
      have hlen2 : (rest.dropWhile (fun x => x.hash == r.hash)).length ≤ n := by
        have hsubd : List.Sublist (rest.dropWhile (fun x => x.hash == r.hash)) rest :=
          List.dropWhile_sublist _
        have h1 := hsubd.length_le
        simp only [List.length_cons] at hlen
        omega
      have ih2 := ih (rest.dropWhile (fun x => x.hash == r.hash)) hlen2 hpair2
      have hruns : runs (r :: rest) =
          (r :: rest.takeWhile (fun x => x.hash == r.hash)) ::
            runs (rest.dropWhile (fun x => x.hash == r.hash)) := by
        simp [runs]
      have hcore : ∀ res2, ((rowVal r.pjson).bind fun v =>
          goAll rest (some r.hash) (dinsert [] (r.name, v)) res2) =
          ((runs (r :: rest)).mapM buildObj).map (fun ds => res2 ++ ds) := by
        intro res2
        conv_lhs => rw [← hsplit]
        rw [hruns, List.mapM_cons]
        cases hv : rowVal r.pjson with
        | none =>
          have hb : buildObj (r :: rest.takeWhile (fun x => x.hash == r.hash)) =
              none := by
            simp [buildObj, List.foldlM_cons, hv]
          simp [hb]
        | some v =>
          have hb : buildObj (r :: rest.takeWhile (fun x => x.hash == r.hash)) =
              (rest.takeWhile (fun x => x.hash == r.hash)).foldlM
                (fun d x => (rowVal x.pjson).map (fun w => dinsert d (x.name, w)))
                (dinsert [] (r.name, v)) := by
            simp [buildObj, List.foldlM_cons, hv]
          simp only [Option.some_bind]
          rw [goAll_consume_run r.hash _ _ _ _ hall, hb]
          cases hf : (rest.takeWhile (fun x => x.hash == r.hash)).foldlM
              (fun d x => (rowVal x.pjson).map (fun w => dinsert d (x.name, w)))
              (dinsert [] (r.name, v)) with
          | none => simp
          | some obj2 =>
            simp only [Option.some_bind]
            rw [ih2.2 r.hash obj2 res2 hne2]
            cases hm : (runs (rest.dropWhile
                (fun x => x.hash == r.hash))).mapM buildObj with
            | none => simp
            | some ds => simp
      constructor
      · intro res
        have hg : goAll (r :: rest) none [] res =
            (rowVal r.pjson).bind fun v =>
              goAll rest (some r.hash) (dinsert [] (r.name, v)) res := by
          simp [goAll]
        rw [hg, hcore res]
      · intro h obj res hne
        have hrne : r.hash ≠ h := hne r (List.mem_cons_self r rest)
        have hg : goAll (r :: rest) (some h) obj res =
            (rowVal r.pjson).bind fun v =>
              goAll rest (some r.hash) (dinsert [] (r.name, v)) (res ++ [obj]) := by
          simp [goAll, hrne]
        rw [hg, hcore (res ++ [obj])]
        cases hm : (runs (r :: rest)).mapM buildObj with
        | none => simp
        | some ds => simp

lemma dedup_head_run : ∀ (xs : List String) (x : String) (ys : List String),
    (∀ s ∈ xs, s = x) →
    (∀ y, ys.head? = some y → y ≠ x) →
    dedupConsec (x :: (xs ++ ys)) = x :: dedupConsec ys
  | [], x, ys => by
    intro _ hhead
    simp only [List.nil_append]
    cases ys with
    | nil => simp [dedupConsec]
    | cons y ys2 =>
      have hy : y ≠ x := hhead y rfl
      rw [show dedupConsec (x :: y :: ys2) = x :: dedupConsec (y :: ys2) from by
        simp [dedupConsec, Ne.symm hy]]
  | x2 :: xs, x, ys => by
    intro hall hhead
    have hx : x2 = x := hall x2 (List.mem_cons_self x2 xs)
    subst hx
    rw [List.cons_append]
    rw [show dedupConsec (x2 :: x2 :: (xs ++ ys)) = dedupConsec (x2 :: (xs ++ ys))
      from by simp [dedupConsec]]
    exact dedup_head_run xs x2 ys
      (fun s hs => hall s (List.mem_cons_of_mem _ hs)) hhead
termination_by xs _ _ => xs.length

lemma runs_eq_filters : ∀ (n : Nat) (l : List Row), l.length ≤ n →
    l.Pairwise (fun a b => a.hash ≤ b.hash) →
    (runs l).mapM buildObj =
      (dedupConsec (l.map (fun r => r.hash))).mapM
        (fun h => buildObj (l.filter (fun r => r.hash == h))) := by
  intro n
  induction n with
  | zero =>
    intro l hlen _
    have hnil : l = [] := List.eq_nil_of_length_eq_zero (Nat.le_zero.mp hlen)
    subst hnil
    rw [show runs ([] : List Row) = [] from by simp [runs]]
    rfl
  | succ n ih =>
    intro l hlen hsorted
    cases l with
    | nil =>
      rw [show runs ([] : List Row) = [] from by simp [runs]]
      rfl
    | cons r rest =>
      rcases List.pairwise_cons.mp hsorted with ⟨hrle, hrest⟩
      have hsplit : rest.takeWhile (fun x => x.hash == r.hash) ++
          rest.dropWhile (fun x => x.hash == r.hash) = rest :=
        List.takeWhile_append_dropWhile _ rest
      have hall : ∀ x ∈ rest.takeWhile (fun x => x.hash == r.hash),
          x.hash = r.hash := by
        intro x hx
        have hp := List.mem_takeWhile_imp hx
        simpa using hp
      have hpair2 : (rest.dropWhile (fun x => x.hash == r.hash)).Pairwise
          (fun a b => a.hash ≤ b.hash) :=
        List.Pairwise.sublist (List.dropWhile_sublist _) hrest
      have hne2 : ∀ z ∈ rest.dropWhile (fun x => x.hash == r.hash),
          z.hash ≠ r.hash := by
        cases hd : rest.dropWhile (fun x => x.hash == r.hash) with
        | nil =>
          intro z hz
          cases hz
        | cons y rest3 =>
          have h0 := List.head?_dropWhile_not (fun x => x.hash == r.hash) rest
          rw [hd] at h0
          simp only [List.head?_cons] at h0
          have hyne : y.hash ≠ r.hash := by simpa using h0
          have hymem : y ∈ rest :=
            (List.dropWhile_sublist _).subset (hd ▸ List.mem_cons_self y rest3)
          have hylt : r.hash < y.hash := lt_of_le_of_ne (hrle y hymem) (Ne.symm hyne)
          have hp2 := hpair2
          rw [hd] at hp2
          rcases List.pairwise_cons.mp hp2 with ⟨hyle, _⟩
          intro z hz
          rcases List.mem_cons.mp hz with rfl | hz3
          · exact hyne
          · exact ne_of_gt (lt_of_lt_of_le hylt (hyle z hz3))
      have hlen2 : (rest.dropWhile (fun x => x.hash == r.hash)).length ≤ n := by
        have hsubd : List.Sublist (rest.dropWhile (fun x => x.hash == r.hash)) rest :=
          List.dropWhile_sublist _
        have h1 := hsubd.length_le
        simp only [List.length_cons] at hlen
        omega
      have hruns : runs (r :: rest) =
          (r :: rest.takeWhile (fun x => x.hash == r.hash)) ::
            runs (rest.dropWhile (fun x => x.hash == r.hash)) := by
        simp [runs]
      have hmap : (r :: rest).map (fun x => x.hash) =
          r.hash ::
            ((rest.takeWhile (fun x => x.hash == r.hash)).map (fun x => x.hash) ++
             (rest.dropWhile (fun x => x.hash == r.hash)).map (fun x => x.hash)) := by
        rw [List.map_cons, ← List.map_append, hsplit]
      have hdedup : dedupConsec ((r :: rest).map (fun x => x.hash)) =
          r.hash :: dedupConsec ((rest.dropWhile (fun x => x.hash == r.hash)).map
            (fun x => x.hash)) := by
        rw [hmap]
        apply dedup_head_run
        · intro s hs
          obtain ⟨x, hx, rfl⟩ := List.mem_map.mp hs
          exact hall x hx
        · intro y hy
          cases hd : rest.dropWhile (fun x => x.hash == r.hash) with
          | nil =>
            rw [hd] at hy
            simp at hy
          | cons z rest3 =>
            rw [hd] at hy
            simp only [List.map_cons, List.head?_cons, Option.some.injEq] at hy
            subst hy
            exact hne2 z (hd ▸ List.mem_cons_self z rest3)
      have hfilt1 : (r :: rest).filter (fun x => x.hash == r.hash) =
          r :: rest.takeWhile (fun x => x.hash == r.hash) := by
        rw [show (r :: rest).filter (fun x => x.hash == r.hash) =
            r :: rest.filter (fun x => x.hash == r.hash) from by
          simp [List.filter_cons]]
        congr 1
        conv_lhs => rw [← hsplit]
        rw [List.filter_append,
          List.filter_eq_self.mpr (fun x hx => by simp [hall x hx]),
          List.filter_eq_nil_iff.mpr (fun x hx => by simp [hne2 x hx])]
        simp
      rw [hruns, hdedup]
      simp only [List.mapM_cons]
      have h1 : buildObj ((r :: rest).filter (fun x => x.hash == r.hash)) =
          buildObj (r :: rest.takeWhile (fun x => x.hash == r.hash)) := by
        rw [hfilt1]
      have h2 : (dedupConsec ((rest.dropWhile (fun x => x.hash == r.hash)).map
            (fun x => x.hash))).mapM
            (fun h => buildObj ((r :: rest).filter (fun x => x.hash == h))) =
          (runs (rest.dropWhile (fun x => x.hash == r.hash))).mapM buildObj := by
        rw [ih _ hlen2 hpair2]
        apply optionMapM_congr
        intro h3 hh3
        have hmem : h3 ∈ (rest.dropWhile (fun x => x.hash == r.hash)).map
            (fun x => x.hash) := (mem_dedupConsec _ _).mp hh3
        obtain ⟨z, hz, rfl⟩ := List.mem_map.mp hmem
        have hzne : z.hash ≠ r.hash := hne2 z hz
        show buildObj ((r :: rest).filter (fun x => x.hash == z.hash)) =
          buildObj ((rest.dropWhile (fun x => x.hash == r.hash)).filter
            (fun x => x.hash == z.hash))
        congr 1
        rw [show (r :: rest).filter (fun x => x.hash == z.hash) =
            rest.filter (fun x => x.hash == z.hash) from by
          simp [List.filter_cons, Ne.symm hzne]]
        conv_lhs => rw [← hsplit]
        rw [List.filter_append,
          List.filter_eq_nil_iff.mpr (fun x hx => by
            have hxh := hall x hx
            simp [hxh, Ne.symm hzne]),
          List.nil_append]
      rw [h1, h2]

lemma sortRows_pairwise (t : List Row) :
    (sortRows t).Pairwise (fun a b => a.hash ≤ b.hash) := by
  have htrans : ∀ a b c : Row, (fun x y : Row => decide (x.hash ≤ y.hash)) a b →
      (fun x y : Row => decide (x.hash ≤ y.hash)) b c →
      (fun x y : Row => decide (x.hash ≤ y.hash)) a c := by
    intro a b c hab hbc
    simp only [decide_eq_true_eq] at hab hbc ⊢
    exact le_trans hab hbc
  have htotal : ∀ a b : Row, ((fun x y : Row => decide (x.hash ≤ y.hash)) a b ||
      (fun x y : Row => decide (x.hash ≤ y.hash)) b a) = true := by
    intro a b
    simp [le_total]
  have hs := List.sorted_mergeSort htrans htotal t
  exact hs.imp (fun hab => by simpa using hab)

lemma goAll_sorted_eq (l : List Row)
    (hs : l.Pairwise (fun a b => a.hash ≤ b.hash)) :
    goAll l none [] [] = (runs l).mapM buildObj := by
  have h := (goAll_split l.length l le_rfl hs).1 []
  rw [h]
  cases hm : (runs l).mapM buildObj with
  | none => simp
  | some ds => simp

/-- C7: `retrieve_all_objects` performs a sort-merge grouping of the
fingerprint-ordered row stream: it returns exactly one dict per distinct
fingerprint present in the table — the same dict `retrieve_object` builds for
that fingerprint — and the grouping keys are exactly the fingerprints stored
in the table, in strictly ascending order. -/
theorem c7_retrieve_all_objects_grouping (t : List Row) :
    retrieve_all_objects t =
      (distinctHashes t).mapM (fun h => retrieve_object t h) ∧
    (distinctHashes t).Pairwise (fun a b => a < b) ∧
    (∀ h, h ∈ distinctHashes t ↔ ∃ r ∈ t, r.hash = h) := by
  have hs := sortRows_pairwise t
  refine ⟨?_, ?_, ?_⟩
  · show goAll (sortRows t) none [] [] = _
    rw [goAll_sorted_eq _ hs,
      runs_eq_filters (sortRows t).length _ le_rfl hs]
    apply optionMapM_congr
    intro h hh
    show buildObj ((sortRows t).filter (fun r => r.hash == h)) = retrieve_object t h
    rw [filter_hash_sortRows]
    rfl
  · apply dedupConsec_pairwise_lt
    rw [List.pairwise_map]
    exact hs
  · intro h
    show h ∈ dedupConsec ((sortRows t).map (fun r => r.hash)) ↔ _
    rw [mem_dedupConsec]
    constructor
    · intro hm
      obtain ⟨r, hr, rfl⟩ := List.mem_map.mp hm
      exact ⟨r, (List.mergeSort_perm t _).mem_iff.mp hr, rfl⟩
    · rintro ⟨r, hrt, rfl⟩
      exact List.mem_map_of_mem _ ((List.mergeSort_perm t _).mem_iff.mpr hrt)

end ObjectStore
